import Mathlib

/-!
# chess-explorer-go: verification of the retrieval/aggregation engine

Shallow embedding of the server-side core of the repository:

* `bsonFromGameFilter`, `gameFilterFromRequest`, `buildMoveFieldName`,
  `getGame`, `getLoneGames` and the next-move aggregation of
  `internal/server` (file with the next-moves handler),
* `replay` / `searchFEN` per-game replay of `internal/server/searchfen.go`.

The MongoDB store is modelled as a list of `Game` documents; the query
documents built by the Go code are embedded as a small `Bson` AST whose
evaluation over a `Game` implements the documented semantics of the
operators actually used (`$or`, `$and`, `$regex` on `regexp.QuoteMeta`-ed
literals, `$gte`/`$lte`, `$exists`/`$ne`).  The chess-rules library
(`notnil/chess`) is an external capability and is kept abstract: replay is
parametric in an `applyMove` partial function and a position printer.

Counts that are `uint32` in Go are modelled as `Nat`: wrap-around would
need more than `2^32` stored games contributing to a single counter and is
idealized away.
-/

set_option autoImplicit false

namespace ChessExplorer

/-! ## String helpers (models of the Go standard library calls used) -/

/-- Model of Go `strings.Split(s, sep)` for the single-character separators
used by the repository (`" "`, `","`, `":"`, `"+"`): auxiliary walk over the
characters, `cur` holds the current chunk reversed. -/
def charSplitAux (c : Char) : List Char → List Char → List String
  | [], cur => [String.mk cur.reverse]
  | x :: rest, cur =>
    if x = c then String.mk cur.reverse :: charSplitAux c rest []
    else charSplitAux c rest (x :: cur)

/-- Model of Go `strings.Split` with a one-character separator.
Like Go, `charSplit "" c = [""]`. -/
def charSplit (s : String) (c : Char) : List String :=
  charSplitAux c s.data []

/-- ASCII whitespace (Go `strings.TrimSpace` also trims some Unicode
spaces; the repository only ever feeds it form values, the ASCII cases are
the ones exercised). -/
def isSpaceChar (ch : Char) : Bool :=
  ch = ' ' || ch = '\t' || ch = '\n' || ch = '\r'

/-- Model of Go `strings.TrimSpace`. -/
def trimSpace (s : String) : String :=
  String.mk (((s.data.dropWhile isSpaceChar).reverse.dropWhile isSpaceChar).reverse)

/-- Model of Go `strings.HasSuffix(x, ".")`: the last character is `'.'`. -/
def endsDot (s : String) : Bool :=
  s.data.getLast? = some '.'

/-- Model of Go `strings.ToLower` (ASCII). -/
def toLowerStr (s : String) : String :=
  String.mk (s.data.map Char.toLower)

/-- `needle` occurs as a contiguous subsequence of `hay`: the semantics of
an unanchored Mongo `$regex` whose pattern is a `regexp.QuoteMeta`-quoted
literal. -/
def containsSeq (needle : List Char) : List Char → Bool
  | [] => needle.isPrefixOf []
  | c :: rest => needle.isPrefixOf (c :: rest) || containsSeq needle rest

/-- Model of Go `strconv.Atoi`: optional sign then one or more decimal
digits.  (Go additionally range-errors outside 64 bits; the claims never
exercise such values, `Int` is unbounded here.) -/
def atoi (s : String) : Option Int :=
  let digitsToNat (l : List Char) : Nat :=
    l.foldl (fun acc c => acc * 10 + (c.toNat - '0'.toNat)) 0
  let allDigits (l : List Char) : Bool := !l.isEmpty && l.all (fun c => '0' ≤ c && c ≤ '9')
  match s.data with
  | [] => none
  | c :: rest =>
    if c = '-' then
      if allDigits rest then some (-(digitsToNat rest : Int)) else none
    else if c = '+' then
      if allDigits rest then some ((digitsToNat rest : Int)) else none
    else
      if allDigits (c :: rest) then some ((digitsToNat (c :: rest) : Int)) else none

/-! ## Dates

`bsonFromGameFilter` parses `filter.from + "T00:00:00+00:00"` and
`filter.to + "T23:59:59+00:00"` with `time.Parse(time.RFC3339, _)`.  The
fixed suffixes are valid, so the parse succeeds exactly when the form value
is a valid `YYYY-MM-DD` date.  Timestamps are modelled by an order-faithful
injective encoding of (year, month, day, second-of-day); no claim depends
on absolute epoch values, only on parse success and on `≤`. -/

def isLeapYear (y : Nat) : Bool :=
  (y % 4 = 0 && y % 100 ≠ 0) || y % 400 = 0

def daysInMonth (y m : Nat) : Nat :=
  if m = 2 then (if isLeapYear y then 29 else 28)
  else if m = 4 || m = 6 || m = 9 || m = 11 then 30
  else 31

/-- Parse a `YYYY-MM-DD` string, validating ranges as Go `time.Parse`
does. -/
def parseYMD (s : String) : Option (Nat × Nat × Nat) :=
  let digit (c : Char) : Bool := '0' ≤ c && c ≤ '9'
  let val (l : List Char) : Nat := l.foldl (fun acc c => acc * 10 + (c.toNat - '0'.toNat)) 0
  match s.data with
  | [y1, y2, y3, y4, '-', m1, m2, '-', d1, d2] =>
    if [y1, y2, y3, y4, m1, m2, d1, d2].all digit then
      let y := val [y1, y2, y3, y4]
      let m := val [m1, m2]
      let d := val [d1, d2]
      if 1 ≤ m && m ≤ 12 && 1 ≤ d && d ≤ daysInMonth y m then some (y, m, d) else none
    else none
  | _ => none

/-- Order-faithful timestamp encoding of a date plus a second-of-day. -/
def dateStamp (y m d secs : Nat) : Int :=
  ((((y * 13 + m) * 32 + d) * 86400 + secs : Nat) : Int)

/-- Model of `time.Parse(time.RFC3339, from + "T00:00:00+00:00")`. -/
def parseFromDate (s : String) : Option Int :=
  (parseYMD s).map fun x => dateStamp x.1 x.2.1 x.2.2 0

/-- Model of `time.Parse(time.RFC3339, to + "T23:59:59+00:00")`. -/
def parseToDate (s : String) : Option Int :=
  (parseYMD s).map fun x => dateStamp x.1 x.2.1 x.2.2 86399

/-! ## The data model -/

/-- Modelled from the spec: the stored GameRecord (`pgntodb.Game`, whose
defining Go file is outside the provided sources; §3 of the spec lists its
attributes, and the server sources read `PGN`, `Result`, `Link` and the
bson fields named below).  `moveFields` holds the values of the indexed
per-ply fields `m01`, `m02`, …: field `i` is present iff `i ≤
moveFields.length` (per the spec they are populated only for games of at
most 20 plies, in which case `moveFields.length ≤ 20`). -/
structure Game where
  id : String
  pgn : String
  white : String
  black : String
  site : String
  timecontrol : String
  whiteelo : Int
  blackelo : Int
  datetime : Int
  result : String
  link : String
  moveFields : List String
deriving DecidableEq, Repr

/-- `GameFilter` of the next-moves server file (the Go fields `from`/`to`
are keywords in Lean and appear as `fromD`/`toD`). -/
structure GameFilter where
  pgn : String
  white : String
  black : String
  timecontrol : String
  simplifyTimecontrol : String
  fromD : String
  toD : String
  minelo : String
  maxelo : String
  site : String
  pgnMoves : List String
  mongoAggregation : Bool
deriving DecidableEq, Repr

/-- The flat string form fields consumed by `gameFilterFromRequest`
(`r.FormValue(_)` results). -/
structure Request where
  pgn : String
  white : String
  black : String
  timecontrol : String
  simplifyTimecontrol : String
  fromD : String
  toD : String
  minelo : String
  maxelo : String
  site : String
deriving DecidableEq, Repr

/-! ## BSON query documents

AST of exactly the query shapes the repository constructs, with their
MongoDB evaluation semantics over a `Game` document. -/

/-- A single-field condition inside a query document. -/
inductive FieldCond where
  /-- `{field: s}` equality with a string. -/
  | eqStr (s : String)
  /-- `{field: {"$regex": regexp.QuoteMeta s}}`: unanchored, so the literal
  `s` occurs as a substring. -/
  | regexSub (s : String)
  /-- `{field: {"$regex": "^" + regexp.QuoteMeta s}}`: the literal `s` is a
  prefix of the value. -/
  | regexPre (s : String)
  /-- `{field: {"$gte": n}}` on a numeric/date field. -/
  | gteI (n : Int)
  /-- `{field: {"$lte": n}}` on a numeric/date field. -/
  | lteI (n : Int)
  /-- `{field: {"$exists": true, "$ne": ""}}`. -/
  | existsNe
deriving DecidableEq, Repr

/-- A `bson.M` query value as built by the repository: either a document of
field conditions (multiple fields conjoin) or a `$or`/`$and` of
sub-queries. -/
inductive Bson where
  | doc (fields : List (String × FieldCond))
  | orB (l : List Bson)
  | andB (l : List Bson)
deriving Repr

mutual

/-- Boolean equality on `Bson` (the nested list keeps the derive handler
from producing one). -/
def bsonBeq : Bson → Bson → Bool
  | .doc f1, .doc f2 => decide (f1 = f2)
  | .orB l1, .orB l2 => bsonListBeq l1 l2
  | .andB l1, .andB l2 => bsonListBeq l1 l2
  | _, _ => false

/-- Boolean equality on lists of `Bson`. -/
def bsonListBeq : List Bson → List Bson → Bool
  | [], [] => true
  | a :: as, b :: bs => bsonBeq a b && bsonListBeq as bs
  | _, _ => false

end

mutual

theorem bsonBeq_iff : ∀ a b : Bson, bsonBeq a b = true ↔ a = b
  | .doc f1, .doc f2 => by simp [bsonBeq]
  | .doc _, .orB _ => by simp [bsonBeq]
  | .doc _, .andB _ => by simp [bsonBeq]
  | .orB _, .doc _ => by simp [bsonBeq]
  | .orB l1, .orB l2 => by
    simp only [bsonBeq, Bson.orB.injEq]
    exact bsonListBeq_iff l1 l2
  | .orB _, .andB _ => by simp [bsonBeq]
  | .andB _, .doc _ => by simp [bsonBeq]
  | .andB _, .orB _ => by simp [bsonBeq]
  | .andB l1, .andB l2 => by
    simp only [bsonBeq, Bson.andB.injEq]
    exact bsonListBeq_iff l1 l2

theorem bsonListBeq_iff : ∀ l1 l2 : List Bson, bsonListBeq l1 l2 = true ↔ l1 = l2
  | [], [] => by simp [bsonListBeq]
  | [], _ :: _ => by simp [bsonListBeq]
  | _ :: _, [] => by simp [bsonListBeq]
  | a :: as, b :: bs => by
    simp only [bsonListBeq, Bool.and_eq_true, List.cons.injEq]
    exact and_congr (bsonBeq_iff a b) (bsonListBeq_iff as bs)

end

instance : DecidableEq Bson := fun a b =>
  decidable_of_iff (bsonBeq a b = true) (bsonBeq_iff a b)

/-- String-valued document fields (the indexed move fields are present only
up to the game's stored ply count). -/
def getStr (g : Game) (f : String) : Option String :=
  match f with
  | "pgn" => some g.pgn
  | "white" => some g.white
  | "black" => some g.black
  | "site" => some g.site
  | "timecontrol" => some g.timecontrol
  | "result" => some g.result
  | "m01" => g.moveFields.get? 0
  | "m02" => g.moveFields.get? 1
  | "m03" => g.moveFields.get? 2
  | "m04" => g.moveFields.get? 3
  | "m05" => g.moveFields.get? 4
  | "m06" => g.moveFields.get? 5
  | "m07" => g.moveFields.get? 6
  | "m08" => g.moveFields.get? 7
  | "m09" => g.moveFields.get? 8
  | "m10" => g.moveFields.get? 9
  | "m11" => g.moveFields.get? 10
  | "m12" => g.moveFields.get? 11
  | "m13" => g.moveFields.get? 12
  | "m14" => g.moveFields.get? 13
  | "m15" => g.moveFields.get? 14
  | "m16" => g.moveFields.get? 15
  | "m17" => g.moveFields.get? 16
  | "m18" => g.moveFields.get? 17
  | "m19" => g.moveFields.get? 18
  | "m20" => g.moveFields.get? 19
  | _ => none

/-- Numeric/date document fields. -/
def getInt (g : Game) (f : String) : Option Int :=
  match f with
  | "whiteelo" => some g.whiteelo
  | "blackelo" => some g.blackelo
  | "datetime" => some g.datetime
  | _ => none

/-- Evaluate one field condition on a game (a condition on an absent field
matches nothing, per MongoDB type bracketing; `$exists: true` fails on an
absent field). -/
def evalField (g : Game) (f : String) : FieldCond → Bool
  | .eqStr s => decide (getStr g f = some s)
  | .regexSub s =>
    match getStr g f with
    | some v => containsSeq s.data v.data
    | none => false
  | .regexPre s =>
    match getStr g f with
    | some v => s.data.isPrefixOf v.data
    | none => false
  | .gteI n =>
    match getInt g f with
    | some m => decide (n ≤ m)
    | none => false
  | .lteI n =>
    match getInt g f with
    | some m => decide (m ≤ n)
    | none => false
  | .existsNe =>
    match getStr g f with
    | some v => decide (v ≠ "")
    | none => false

mutual

/-- MongoDB evaluation of a query document over one game. -/
def evalBson : Bson → Game → Bool
  | .doc fields, g => fields.all fun p => evalField g p.1 p.2
  | .orB l, g => evalAny l g
  | .andB l, g => evalAll l g

/-- `$or`: some sub-query matches. -/
def evalAny : List Bson → Game → Bool
  | [], _ => false
  | b :: rest, g => evalBson b g || evalAny rest g

/-- `$and`: every sub-query matches. -/
def evalAll : List Bson → Game → Bool
  | [], _ => true
  | b :: rest, g => evalBson b g && evalAll rest g

end

/-- The `find(predicate)` store capability over the modelled collection. -/
def findGames (store : List Game) (b : Bson) : List Game :=
  store.filter fun g => evalBson b g

/-! ## Predicate compiler (`bsonFromGameFilter` and helpers) -/

/-- `buildMoveFieldName`: stable two-digit zero-padded per-ply field
name. -/
def buildMoveFieldName (fieldNum : Nat) : String :=
  let moveField := "m"
  let moveField := if fieldNum < 10 then moveField ++ "0" else moveField
  moveField ++ toString fieldNum

/-- `convertSite`: the fixed site-code table. -/
def convertSite (shortName : String) : String :=
  match shortName with
  | "c" => "chess.com"
  | "l" => "lichess.org"
  | _ => ""

/-- The time-control dimension of `bsonFromGameFilter` (one sub-predicate
per non-blank comma-separated value; in "simplify" mode an `$or` of the
exact base and the `base+`-prefixed values, the literal `"-"` matching
itself or any slash-containing value). -/
def tcDim (filter : GameFilter) : List Bson :=
  (charSplit filter.timecontrol ',').foldl
    (fun acc timeControl =>
      if trimSpace timeControl ≠ "" then
        if filter.simplifyTimecontrol = "true" then
          if timeControl = "-" then
            acc ++ [Bson.orB [Bson.doc [("timecontrol", FieldCond.eqStr "-")],
                              Bson.doc [("timecontrol", FieldCond.regexSub "/")]]]
          else
            let timecontrolParts := charSplit (trimSpace timeControl) '+'
            let base := timecontrolParts.headD ""
            acc ++ [Bson.orB [Bson.doc [("timecontrol", FieldCond.eqStr base)],
                              Bson.doc [("timecontrol", FieldCond.regexPre (base ++ "+"))]]]
        else
          acc ++ [Bson.doc [("timecontrol", FieldCond.eqStr (trimSpace timeControl))]]
      else acc)
    []

/-- The site dimension. -/
def siteDim (filter : GameFilter) : List Bson :=
  (charSplit filter.site ',').foldl
    (fun acc site =>
      if trimSpace site ≠ "" then
        acc ++ [Bson.doc [("site", FieldCond.eqStr (trimSpace site))]]
      else acc)
    []

/-- The rating dimension: each present bound constrains both colors; the
`strconv.Atoi` error is discarded, so a malformed value contributes its
zero value. -/
def eloDim (filter : GameFilter) : List Bson :=
  (if filter.minelo ≠ "" then
    [Bson.doc [("whiteelo", FieldCond.gteI ((atoi filter.minelo).getD 0)),
               ("blackelo", FieldCond.gteI ((atoi filter.minelo).getD 0))]]
   else [])
  ++
  (if filter.maxelo ≠ "" then
    [Bson.doc [("whiteelo", FieldCond.lteI ((atoi filter.maxelo).getD 0)),
               ("blackelo", FieldCond.lteI ((atoi filter.maxelo).getD 0))]]
   else [])

/-- The date dimension: a value that fails to parse is only logged and
contributes nothing. -/
def dateDim (filter : GameFilter) : List Bson :=
  (if filter.fromD ≠ "" then
    match parseFromDate filter.fromD with
    | some fromDate => [Bson.doc [("datetime", FieldCond.gteI fromDate)]]
    | none => []
   else [])
  ++
  (if filter.toD ≠ "" then
    match parseToDate filter.toD with
    | some toDate => [Bson.doc [("datetime", FieldCond.lteI toDate)]]
    | none => []
   else [])

/-- Player dimension worker: note the Go loop uses `break` on a blank
entry, dropping everything after it. -/
def userDimGo (colorField : String) : List String → List Bson → List Bson
  | [], acc => acc
  | user :: rest, acc =>
    if trimSpace user = "" then acc
    else
      let splitUser := charSplit (trimSpace user) ':'
      if splitUser.length > 1 then
        userDimGo colorField rest
          (acc ++ [Bson.doc [("site", FieldCond.eqStr (convertSite (splitUser.headD ""))),
                             (colorField, FieldCond.eqStr (splitUser.getD 1 ""))]])
      else
        userDimGo colorField rest
          (acc ++ [Bson.doc [(colorField, FieldCond.eqStr (splitUser.headD ""))]])

/-- The white-player dimension (`site-code:name` or bare name). -/
def whiteDim (filter : GameFilter) : List Bson :=
  userDimGo "white" (charSplit filter.white ',') []

/-- The black-player dimension. -/
def blackDim (filter : GameFilter) : List Bson :=
  userDimGo "black" (charSplit filter.black ',') []

/-- The opening-prefix dimension: under the indexed strategy one equality
per occupied ply field plus the existence constraint on the next ply field
(appended unconditionally, even for an empty prefix); under the scan
strategy a quoted substring `$regex` over the raw move text. -/
def movesDim (filter : GameFilter) : List Bson :=
  if filter.mongoAggregation then
    ((List.range filter.pgnMoves.length).map fun i =>
      Bson.doc [(buildMoveFieldName (i + 1), FieldCond.eqStr (filter.pgnMoves.getD i ""))])
    ++ [Bson.doc [(buildMoveFieldName (filter.pgnMoves.length + 1), FieldCond.existsNe)]]
  else
    if filter.pgn ≠ "" then [Bson.doc [("pgn", FieldCond.regexSub filter.pgn)]]
    else []

/-- The per-dimension `switch len(...)` gathering step: zero values add no
constraint, one value is added bare, several are wrapped in `$or`/`$and`. -/
def addDim (acc : List Bson) (dim : List Bson) (wrap : List Bson → Bson) : List Bson :=
  match dim with
  | [] => acc
  | [b] => acc ++ [b]
  | _ => acc ++ [wrap dim]

/-- The gathered `finalBson` list, in source order: time control, site,
rating, date, white, black, opening moves. -/
def finalList (filter : GameFilter) : List Bson :=
  addDim (addDim (addDim (addDim (addDim (addDim (addDim []
    (tcDim filter) Bson.orB)
    (siteDim filter) Bson.orB)
    (eloDim filter) Bson.andB)
    (dateDim filter) Bson.andB)
    (whiteDim filter) Bson.orB)
    (blackDim filter) Bson.orB)
    (movesDim filter) Bson.andB

/-- `bsonFromGameFilter`: the compiled predicate (empty document when no
dimension contributes). -/
def bsonFromGameFilter (filter : GameFilter) : Bson :=
  match finalList filter with
  | [] => Bson.doc []
  | [b] => b
  | l => Bson.andB l

/-- The shared "strip move numbers" step: split on spaces (an empty text
yields no tokens) and keep only tokens not ending in `"."`. -/
def stripDots (pgn : String) : List String :=
  (if pgn.length > 0 then charSplit pgn ' ' else []).filter fun x => !endsDot x

/-- `gameFilterFromRequest`: trim every form field (lower-casing the site
list), derive `pgnMoves` by stripping move-number tokens, and choose the
aggregation strategy iff fewer than 20 plies were given. -/
def gameFilterFromRequest (r : Request) : GameFilter :=
  let pgn := trimSpace r.pgn
  let pgnMoves := stripDots pgn
  { pgn := pgn
    white := trimSpace r.white
    black := trimSpace r.black
    timecontrol := trimSpace r.timecontrol
    simplifyTimecontrol := trimSpace r.simplifyTimecontrol
    fromD := trimSpace r.fromD
    toD := trimSpace r.toD
    minelo := trimSpace r.minelo
    maxelo := trimSpace r.maxelo
    site := toLowerStr (trimSpace r.site)
    pgnMoves := pgnMoves
    mongoAggregation := decide (pgnMoves.length < 20) }

/-! ## Position search (`replay` of searchfen.go)

The chess-rules capability is abstract: `apply pos move` is
`chessGame.MoveStr(move)` (`none` on an illegal/unparseable token, in which
case the Go game value is left unchanged — the source discards the returned
error), `strP` is `chessGame.Position().String()`.  The hits a replay sends
to the log channel are returned as a list of 1-based ply indices. -/

/-- The move loop of `replay`: apply each token (an illegal token leaves
the position unchanged), compare the resulting position with the target
after every token, emit the hit and stop on the first match, and stop
without a hit when the ply counter reaches `maxMoves` (an `int` in Go;
`0` or a negative value never equals the incremented counter). -/
def replayAux {P : Type} (apply : P → String → Option P) (strP : P → String)
    (fen : String) (maxMoves : Int) : List String → P → Nat → List Nat
  | [], _, _ => []
  | move :: rest, pos, iMove =>
    if strP ((apply pos move).getD pos) = fen then [iMove + 1]
    else if ((iMove : Int) + 1) = maxMoves then []
    else replayAux apply strP fen maxMoves rest ((apply pos move).getD pos) (iMove + 1)

/-- `replay`: strip move-number tokens from the game's move text and run
the move loop from the initial position. -/
def replayGame {P : Type} (apply : P → String → Option P) (strP : P → String)
    (init : P) (fen : String) (maxMoves : Int) (g : Game) : List Nat :=
  replayAux apply strP fen maxMoves (stripDots g.pgn) init 0

/-- The same loop without any ply ceiling (reference for the
`maxMoves = 0` behaviour). -/
def replayAuxU {P : Type} (apply : P → String → Option P) (strP : P → String)
    (fen : String) : List String → P → Nat → List Nat
  | [], _, _ => []
  | move :: rest, pos, iMove =>
    if strP ((apply pos move).getD pos) = fen then [iMove + 1]
    else replayAuxU apply strP fen rest ((apply pos move).getD pos) (iMove + 1)

/-- Uncapped replay of a whole game. -/
def replayGameU {P : Type} (apply : P → String → Option P) (strP : P → String)
    (init : P) (fen : String) (g : Game) : List Nat :=
  replayAuxU apply strP fen (stripDots g.pgn) init 0

/-- The position after replaying the first `k` tokens with the
illegal-tokens-leave-the-position-unchanged semantics of the loop. -/
def posAfter {P : Type} (apply : P → String → Option P) : P → List String → Nat → P
  | pos, _, 0 => pos
  | pos, [], _ + 1 => pos
  | pos, move :: rest, k + 1 => posAfter apply ((apply pos move).getD pos) rest k

/-! ## Next-move aggregation -/

/-- One `{result, sum}` bucket of a candidate move. -/
structure MoveResult where
  result : String
  sum : Nat
deriving DecidableEq, Repr

/-- The `NextMove` response item (only the modelled fields; `game` is the
Go `Game` field, empty as `none`). -/
structure NextMove where
  Move : String
  Results : List MoveResult
  White : Nat
  Draw : Nat
  Black : Nat
  Total : Nat
  game : Option Game
  tmpGame : Option Game
deriving DecidableEq, Repr

/-- The candidate-continuation token the scan strategy extracts from a
matched game: split the raw move text on spaces, drop the trailing result
token, and when the game is longer than the raw prefix token list take the
next token — skipping one ply-number token, where the Go code indexes
`gamePgn[len(filterPgn)+1]` unconditionally (`none` models the
out-of-range panic; games shorter than the prefix produce `""`). -/
def extractNextMove (filterPgn gamePgn : List String) : Option String :=
  if gamePgn.length > filterPgn.length then
    if endsDot (gamePgn.getD filterPgn.length "") then gamePgn.get? (filterPgn.length + 1)
    else some (gamePgn.getD filterPgn.length "")
  else some ""

/-- The scan strategy's per-game next move (the panic case collapsed to
`""`; the safety claim shows it is unreachable for well-formed move
texts). -/
def scanNextMoveOf (filterPgn : List String) (g : Game) : String :=
  (extractNextMove filterPgn ((charSplit g.pgn ' ').dropLast)).getD ""

/-- Linear lookup of a result bucket: increment the first bucket with this
result, appending a fresh `{result, 1}` bucket when none exists. -/
def bumpResult : List MoveResult → String → List MoveResult
  | [], res => [⟨res, 1⟩]
  | y :: rest, res =>
    if y.result = res then ⟨y.result, y.sum + 1⟩ :: rest
    else y :: bumpResult rest res

/-- Replace the `i`-th element by `f` of it. -/
def modifyAt (f : NextMove → NextMove) : List NextMove → Nat → List NextMove
  | [], _ => []
  | x :: rest, 0 => f x :: rest
  | x :: rest, n + 1 => x :: modifyAt f rest n

/-- One matched game's contribution in the scan strategy: locate (or
append, remembering the game in `tmpGame`) the entry for its next move and
bump that entry's result bucket; a game contributing no next move is
skipped. -/
def scanStep (filterPgn : List String) (acc : List NextMove) (g : Game) : List NextMove :=
  if scanNextMoveOf filterPgn g ≠ "" then
    match List.findIdx? (fun nm => nm.Move = scanNextMoveOf filterPgn g) acc with
    | some i => modifyAt (fun nm => { nm with Results := bumpResult nm.Results g.result }) acc i
    | none =>
      modifyAt (fun nm => { nm with Results := bumpResult nm.Results g.result })
        (acc ++ [{ Move := scanNextMoveOf filterPgn g, Results := [], White := 0, Draw := 0,
                   Black := 0, Total := 0, game := none, tmpGame := some g }])
        acc.length
  else acc

/-- The scan strategy over the fetched games (`filterPgn` is the raw
space-split of `filter.pgn`, move numbers included). -/
def scanTally (filterPgn : List String) (games : List Game) : List NextMove :=
  games.foldl (scanStep filterPgn) []

/-! ### Indexed (store-side) aggregation

MongoDB executes the pipeline; it is modelled over the list store: `$match`
filters, the first `$group` counts games per (next-move-field value,
result) key, the second collects the buckets of each move value.  Mongo
leaves the order of `$group` output unspecified; the model produces
first-seen order and no theorem relies on it. -/

/-- Value of the grouped move field (`none` models a missing field /
`null` group key). -/
def mfieldVal (g : Game) (fieldNum : Nat) : Option String :=
  getStr g (buildMoveFieldName fieldNum)

/-- Count accumulation for the first `$group`. -/
def bumpPair : List ((Option String × String) × Nat) → (Option String × String) →
    List ((Option String × String) × Nat)
  | [], k => [(k, 1)]
  | (k', c) :: rest, k =>
    if k' = k then (k', c + 1) :: rest else (k', c) :: bumpPair rest k

/-- First `$group`: per (move value, result) counts. -/
def groupPairs (games : List Game) (fieldNum : Nat) : List ((Option String × String) × Nat) :=
  games.foldl (fun acc g => bumpPair acc (mfieldVal g fieldNum, g.result)) []

/-- Bucket accumulation for the second `$group`. -/
def bumpRow : List (Option String × List MoveResult) → Option String → MoveResult →
    List (Option String × List MoveResult)
  | [], mv, r => [(mv, [r])]
  | (mv', rs) :: rest, mv, r =>
    if mv' = mv then (mv', rs ++ [r]) :: rest else (mv', rs) :: bumpRow rest mv r

/-- Second `$group` plus `$project`: one row per move value with its
result buckets. -/
def collectRows (pairs : List ((Option String × String) × Nat)) :
    List (Option String × List MoveResult) :=
  pairs.foldl (fun acc p => bumpRow acc p.1.1 ⟨p.1.2, p.2⟩) []

/-- The aggregation pipeline of the indexed strategy, decoded into
`NextMove` rows (a `null` move key decodes to the empty string). -/
def aggregateNextMoves (store : List Game) (b : Bson) (fieldNum : Nat) : List NextMove :=
  (collectRows (groupPairs (findGames store b) fieldNum)).map fun row =>
    { Move := row.1.getD "", Results := row.2, White := 0, Draw := 0, Black := 0,
      Total := 0, game := none, tmpGame := none }

/-! ### Post-processing shared by both strategies -/

/-- `getGame`: the one extra lookup for a `Total = 1` move under the
indexed strategy — the game filter plus one equality per preceding ply
field plus the candidate move at the next field; the first match, if
any. -/
def getGame (store : List Game) (pgnMoves : List String) (move : String)
    (gameFilterBson : Bson) : Option Game :=
  let andClause :=
    [gameFilterBson]
    ++ ((List.range pgnMoves.length).map fun i =>
        Bson.doc [(buildMoveFieldName (i + 1), FieldCond.eqStr (pgnMoves.getD i ""))])
    ++ [Bson.doc [(buildMoveFieldName (pgnMoves.length + 1), FieldCond.eqStr move)]]
  (findGames store (Bson.andB andClause)).head?

/-- `getLoneGames`: the games matching the filter whose whole move text is
the prefix followed by a result token. -/
def getLoneGames (store : List Game) (pgn : String) (gameFilterBson : Bson) : List Game :=
  let orQuery := [Bson.doc [("pgn", FieldCond.eqStr (pgn ++ " 1-0"))],
                  Bson.doc [("pgn", FieldCond.eqStr (pgn ++ " 0-1"))],
                  Bson.doc [("pgn", FieldCond.eqStr (pgn ++ " 1/2-1/2"))]]
  findGames store (Bson.andB [gameFilterBson, Bson.orB orQuery])

/-- One step of folding the result buckets into (White, Draw, Black): a
`"1-0"` bucket overwrites White, a `"0-1"` bucket overwrites Black, any
other bucket overwrites Draw, as in the source loop. -/
def wdbStep (wdb : Nat × Nat × Nat) (y : MoveResult) : Nat × Nat × Nat :=
  if y.result = "1-0" then (y.sum, wdb.2.1, wdb.2.2)
  else if y.result = "0-1" then (wdb.1, wdb.2.1, y.sum)
  else (wdb.1, y.sum, wdb.2.2)

/-- Fold the result buckets into (White, Draw, Black). -/
def tallyWDB (rs : List MoveResult) : Nat × Nat × Nat :=
  rs.foldl wdbStep (0, 0, 0)

/-- The per-entry pass adding White/Draw/Black/Total and, when `Total = 1`,
attaching the identifying game — by the extra `getGame` lookup under the
indexed strategy (a failed lookup leaves the field empty), directly from
`tmpGame` under the scan strategy. -/
def postOne (store : List Game) (filter : GameFilter) (gameFilterBson : Bson)
    (nm : NextMove) : NextMove :=
  let wdb := tallyWDB nm.Results
  let total := wdb.1 + wdb.2.1 + wdb.2.2
  let game :=
    if total = 1 then
      if filter.mongoAggregation then
        match getGame store filter.pgnMoves nm.Move gameFilterBson with
        | some g => some g
        | none => nm.game
      else nm.tmpGame
    else nm.game
  { nm with White := wdb.1, Draw := wdb.2.1, Black := wdb.2.2, Total := total, game := game }

/-- The synthetic `"End"` entry appended for one lone game. -/
def endEntry (loneGame : Game) : NextMove :=
  let base : NextMove :=
    { Move := "End", Results := [], White := 0, Draw := 0, Black := 0,
      Total := 1, game := some loneGame, tmpGame := none }
  if loneGame.result = "1-0" then { base with White := 1 }
  else if loneGame.result = "0-1" then { base with Black := 1 }
  else { base with Draw := 1 }

/-- The pre-sort rows of the chosen strategy. -/
def preMoves (store : List Game) (filter : GameFilter) (b : Bson) : List NextMove :=
  if filter.mongoAggregation then
    aggregateNextMoves store b (filter.pgnMoves.length + 1)
  else
    scanTally (charSplit filter.pgn ' ') (findGames store b)

/-- Strategy rows with totals and attached games, still in first-seen
order (the state just before `sort.Slice`). -/
def processedMoves (store : List Game) (r : Request) : List NextMove :=
  let filter := gameFilterFromRequest r
  let b := bsonFromGameFilter filter
  (preMoves store filter b).map (postOne store filter b)

/-- Sortedness in the order determined by the `less` closure
`Total i > Total j`: no later element has a strictly larger total. -/
def SortedByTotalGe (l : List NextMove) : Prop :=
  l.Pairwise fun a b => b.Total ≤ a.Total

instance (l : List NextMove) : Decidable (SortedByTotalGe l) := by
  unfold SortedByTotalGe
  infer_instance

/-- The contract of `sort.Slice` (which guarantees a permutation sorted by
`less` but is documented as unstable): any admissible post-sort order. -/
def sortSliceSpec (input output : List NextMove) : Prop :=
  input.Perm output ∧ SortedByTotalGe output

/-- End-to-end relation of the next-moves handler: some `sort.Slice`
outcome of the processed strategy rows, followed by the synthetic `"End"`
entries for the lone games. -/
def nextMovesSpec (store : List Game) (r : Request) (final : List NextMove) : Prop :=
  let filter := gameFilterFromRequest r
  let b := bsonFromGameFilter filter
  ∃ sorted, sortSliceSpec (processedMoves store r) sorted ∧
    final = sorted ++ (getLoneGames store filter.pgn b).map endEntry

/-! ## Well-formed stored move text (for the scan-safety claim)

The ingestion side (`internal/pgntodb`) is outside the provided sources. -/

/-- Scan of the move tokens before the result token: the final token is a
move (does not end in `"."`); a ply-number token is never followed by
another ply-number token. -/
def movesTokensOk : List String → Bool
  | [] => true
  | [x] => !endsDot x
  | x :: y :: rest => (!endsDot x || !endsDot y) && movesTokensOk (y :: rest)

/-- Modelled from the spec: a stored `GameRecord`'s move text is
"space-separated tokens including ply numbers like `1.` and a trailing
result token" (§3), the result being one of `1-0`, `0-1`, `1/2-1/2`; every
ply-number token is followed by a move token, so the token before the
result never ends in `"."`.  The producing code (`internal/pgntodb`) is not
among the provided sources. -/
def wellFormedPgnTokens (tokens : List String) : Bool :=
  match tokens.getLast? with
  | some res =>
    (res = "1-0" || res = "0-1" || res = "1/2-1/2") && movesTokensOk tokens.dropLast
  | none => false

/-! ## Concrete data used by witnesses and counterexamples -/

/-- A request with every form field blank. -/
def emptyRequest : Request :=
  { pgn := "", white := "", black := "", timecontrol := "", simplifyTimecontrol := "",
    fromD := "", toD := "", minelo := "", maxelo := "", site := "" }

/-- The all-empty `GameFilter` with the scan-strategy flag. -/
def emptyFilterScan : GameFilter :=
  { pgn := "", white := "", black := "", timecontrol := "", simplifyTimecontrol := "",
    fromD := "", toD := "", minelo := "", maxelo := "", site := "",
    pgnMoves := [], mongoAggregation := false }

/-- A blank game document to build concrete instances from. -/
def baseGame : Game :=
  { id := "", pgn := "", white := "", black := "", site := "", timecontrol := "",
    whiteelo := 0, blackelo := 0, datetime := 0, result := "", link := "",
    moveFields := [] }

/-- A stored game with no indexed move fields. -/
def gNoMoves : Game := { baseGame with id := "g0", pgn := "1-0", result := "1-0" }

/-- Request whose only non-blank field is a malformed minimum rating. -/
def reqMinAbc : Request := { emptyRequest with minelo := "abc" }

/-- A game with a negative White rating (and an occupied first ply
field). -/
def gNegElo : Game :=
  { baseGame with
    id := "gNeg", pgn := "1. e4 1-0", result := "1-0",
    whiteelo := -5, blackelo := 2000, moveFields := ["e4"] }

/-- Minimum-rating-2000 request. -/
def req2000 : Request := { emptyRequest with minelo := "2000" }

/-- Minimum-rating-1800 request. -/
def req1800 : Request := { emptyRequest with minelo := "1800" }

/-- White rated 2100, Black rated 1900. -/
def gMixed : Game :=
  { baseGame with
    id := "gMix", pgn := "1. e4 1-0", result := "1-0",
    whiteelo := 2100, blackelo := 1900, moveFields := ["e4"] }

/-- White rated 2100, Black rated 2050: both inside a min-2000 band. -/
def gBothHigh : Game :=
  { baseGame with
    id := "gHigh", pgn := "1. e4 1-0", result := "1-0",
    whiteelo := 2100, blackelo := 2050, moveFields := ["e4"] }

/-- A three-position chess-rules capability for replay scenarios: from the
start `e4` reaches `pos-e4`, from there `e5` reaches `pos-e4e5`; every
other token is illegal. -/
def demoApply (pos move : String) : Option String :=
  if pos = "start" && move = "e4" then some "pos-e4"
  else if pos = "pos-e4" && move = "e5" then some "pos-e4e5"
  else none

/-- A game whose move text contains the unparseable token `xx` before the
move `e5`. -/
def gIllegalToken : Game :=
  { baseGame with
    id := "gBad", pgn := "1. e4 xx e5 1-0", result := "1-0" }

/-- A game hitting `pos-e4` at ply 1. -/
def gHit : Game := { baseGame with id := "gHit", pgn := "1. e4 1-0", result := "1-0" }

/-- A one-ply game on which the first move is e4 (indexed field
occupied). -/
def gE4 : Game :=
  { baseGame with
    id := "gE4", pgn := "1. e4 1-0", result := "1-0", moveFields := ["e4"] }

/-- A one-ply game on which the first move is d4. -/
def gD4 : Game :=
  { baseGame with
    id := "gD4", pgn := "1. d4 0-1", result := "0-1", moveFields := ["d4"] }

/-- Two-game store with two distinct first moves of one game each. -/
def cStore4 : List Game := [gE4, gD4]

/-- The admissible `sort.Slice` outcome that reverses the two equal-total
rows. -/
def cSwapped : List NextMove := (processedMoves cStore4 emptyRequest).reverse

/-- One-game store for the `Total = 1` attachment witness. -/
def cStore5 : List Game := [gE4]

/-- Placeholder `NextMove` used as the default of list indexing in
witnesses. -/
def dummyNextMove : NextMove :=
  { Move := "", Results := [], White := 0, Draw := 0, Black := 0, Total := 0,
    game := none, tmpGame := none }

/-- A stored document whose move text ends exactly at the (empty) prefix
followed by a result token while its first indexed field is occupied, so it
passes the empty-request predicate and is a lone game for it. -/
def gLone : Game :=
  { baseGame with
    id := "gLone", pgn := " 1-0", result := "1-0", moveFields := ["e4"] }

/-- Store for the lone-game witness. -/
def cStore6 : List Game := [gLone]

/-- The handler result on `cStore6` with the identity sort outcome. -/
def cFinal6 : List NextMove :=
  processedMoves cStore6 emptyRequest ++
    (getLoneGames cStore6 (gameFilterFromRequest emptyRequest).pgn
      (bsonFromGameFilter (gameFilterFromRequest emptyRequest))).map endEntry

/-! # Theorems -/

/-! ## Evaluation helper lemmas -/

@[simp]
theorem evalAll_nil (g : Game) : evalAll [] g = true := rfl

@[simp]
theorem evalAll_cons (b : Bson) (l : List Bson) (g : Game) :
    evalAll (b :: l) g = (evalBson b g && evalAll l g) := rfl

@[simp]
theorem evalAny_nil (g : Game) : evalAny [] g = false := rfl

@[simp]
theorem evalAny_cons (b : Bson) (l : List Bson) (g : Game) :
    evalAny (b :: l) g = (evalBson b g || evalAny l g) := rfl

@[simp]
theorem evalBson_doc (fs : List (String × FieldCond)) (g : Game) :
    evalBson (Bson.doc fs) g = fs.all fun p => evalField g p.1 p.2 := rfl

@[simp]
theorem evalBson_orB (l : List Bson) (g : Game) : evalBson (Bson.orB l) g = evalAny l g := rfl

@[simp]
theorem evalBson_andB (l : List Bson) (g : Game) : evalBson (Bson.andB l) g = evalAll l g := rfl

theorem evalAll_iff (l : List Bson) (g : Game) :
    evalAll l g = true ↔ ∀ b ∈ l, evalBson b g = true := by
  induction l with
  | nil => simp
  | cons b rest ih => simp [ih]

theorem evalAny_iff (l : List Bson) (g : Game) :
    evalAny l g = true ↔ ∃ b ∈ l, evalBson b g = true := by
  induction l with
  | nil => simp
  | cons b rest ih => simp [ih]

theorem mem_findGames_iff (store : List Game) (b : Bson) (g : Game) :
    g ∈ findGames store b ↔ g ∈ store ∧ evalBson b g = true := by
  simp [findGames]

/-! ## finalList membership helpers -/

theorem mem_addDim_left {x : Bson} {acc : List Bson} (dim : List Bson)
    (wrap : List Bson → Bson) (h : x ∈ acc) : x ∈ addDim acc dim wrap := by
  match dim with
  | [] => exact h
  | [b] => exact List.mem_append_left _ h
  | a :: b :: rest => exact List.mem_append_left _ h

theorem addDim_single {x : Bson} {dim : List Bson} (acc : List Bson)
    (wrap : List Bson → Bson) (h : dim = [x]) : x ∈ addDim acc dim wrap := by
  subst h
  exact List.mem_append_right _ (List.mem_singleton.mpr rfl)

theorem addDim_wrap {dim : List Bson} (acc : List Bson) (wrap : List Bson → Bson)
    (h : 2 ≤ dim.length) : wrap dim ∈ addDim acc dim wrap := by
  match dim, h with
  | a :: b :: rest, _ =>
    exact List.mem_append_right _ (List.mem_singleton.mpr rfl)

/-- Every member of the gathered `finalBson` list evaluates to true on a
game matched by the compiled predicate. -/
theorem eval_finalList_mem {filter : GameFilter} {g : Game}
    (h : evalBson (bsonFromGameFilter filter) g = true) :
    ∀ x ∈ finalList filter, evalBson x g = true := by
  intro x hx
  unfold bsonFromGameFilter at h
  rcases hfl : finalList filter with _ | ⟨b, _ | ⟨c, l⟩⟩ <;> rw [hfl] at h hx
  · simp at hx
  · rw [List.mem_singleton.mp hx]
    exact h
  · exact (evalAll_iff _ g).mp h x hx

/-- A dimension whose contribution reaches `finalList` wrapped in `$and`
(or bare, when it is a single document) has every element true on a matched
game. -/
theorem eval_dim_of_final {filter : GameFilter} {g : Game} {dim : List Bson}
    (hmem1 : ∀ x, dim = [x] → x ∈ finalList filter)
    (hmem2 : 2 ≤ dim.length → Bson.andB dim ∈ finalList filter)
    (h : evalBson (bsonFromGameFilter filter) g = true) :
    ∀ b ∈ dim, evalBson b g = true := by
  intro b hb
  match dim, hb with
  | [x], hb =>
    rw [List.mem_singleton.mp hb]
    exact eval_finalList_mem h x (hmem1 x rfl)
  | a :: c :: rest, hb =>
    have hand := eval_finalList_mem h _ (hmem2 (by simp))
    rw [evalBson_andB] at hand
    exact (evalAll_iff _ g).mp hand b hb

theorem eloDim_contrib (filter : GameFilter) :
    (∀ x, eloDim filter = [x] → x ∈ finalList filter) ∧
    (2 ≤ (eloDim filter).length → Bson.andB (eloDim filter) ∈ finalList filter) := by
  constructor
  · intro x hx
    unfold finalList
    exact mem_addDim_left _ _ (mem_addDim_left _ _ (mem_addDim_left _ _
      (mem_addDim_left _ _ (addDim_single _ _ hx))))
  · intro hlen
    unfold finalList
    exact mem_addDim_left _ _ (mem_addDim_left _ _ (mem_addDim_left _ _
      (mem_addDim_left _ _ (addDim_wrap _ _ hlen))))

theorem movesDim_contrib (filter : GameFilter) :
    (∀ x, movesDim filter = [x] → x ∈ finalList filter) ∧
    (2 ≤ (movesDim filter).length → Bson.andB (movesDim filter) ∈ finalList filter) := by
  constructor
  · intro x hx
    unfold finalList
    exact addDim_single _ _ hx
  · intro hlen
    unfold finalList
    exact addDim_wrap _ _ hlen

/-! ## C1: the all-empty filter and the match-all predicate -/

/-- C1, counterexample: the `GameFilter` parsed from a request with every
dimension empty does **not** compile to the match-all empty document — the
indexed-strategy branch (chosen because the empty prefix has fewer than 20
plies) unconditionally appends the next-move existence constraint on `m01`,
and the resulting predicate rejects a stored game with no indexed move
fields. -/
theorem empty_request_predicate_not_matchall :
    bsonFromGameFilter (gameFilterFromRequest emptyRequest) ≠ Bson.doc [] ∧
    evalBson (bsonFromGameFilter (gameFilterFromRequest emptyRequest)) gNoMoves = false :=
  ⟨by decide, by decide⟩

/-- C1 (amended): predicate compilation is a total function; with every
dimension empty the compiled predicate is the match-all empty document only
when the derived strategy boolean is `false` — under the derived `true`
value (which `gameFilterFromRequest` assigns to an all-empty request) it is
instead the single existence constraint on the first indexed move
field. -/
theorem compile_empty_filter_matchall :
    bsonFromGameFilter emptyFilterScan = Bson.doc [] ∧
    (∀ g : Game, evalBson (bsonFromGameFilter emptyFilterScan) g = true) ∧
    bsonFromGameFilter (gameFilterFromRequest emptyRequest) =
      Bson.doc [("m01", FieldCond.existsNe)] := by
  refine ⟨by decide, ?_, by decide⟩
  intro g
  rw [show bsonFromGameFilter emptyFilterScan = Bson.doc [] from by decide]
  rfl

/-! ## C3: malformed numeric and date sub-fields -/

/-- C3, counterexample: a malformed minimum-rating value is **not**
silently omitted — `strconv.Atoi`'s error is discarded and its zero value
becomes a real `$gte: 0` bound on both colors, so the compiled predicate
differs from the one with the field absent and rejects a game with a
negative White rating that the field-absent predicate accepts. -/
theorem malformed_minelo_adds_zero_bound :
    bsonFromGameFilter (gameFilterFromRequest reqMinAbc) ≠
      bsonFromGameFilter (gameFilterFromRequest emptyRequest) ∧
    evalBson (bsonFromGameFilter (gameFilterFromRequest reqMinAbc)) gNegElo = false ∧
    evalBson (bsonFromGameFilter (gameFilterFromRequest emptyRequest)) gNegElo = true :=
  ⟨by decide, by decide, by decide⟩

/-- C3 (amended): predicate compilation is total and never raises; a
malformed (unparseable) `from`/`to` date sub-field is silently omitted, and
well-formed date sub-fields contribute their bound — but a malformed
`min`/`max` rating sub-field is *not* omitted: it contributes a zero-valued
bound on both colors (well-formed rating values contribute their parsed
bound). -/
theorem malformed_subfields_amended : ∀ filter : GameFilter,
    (filter.minelo ≠ "" → atoi filter.minelo = none →
      Bson.doc [("whiteelo", FieldCond.gteI 0), ("blackelo", FieldCond.gteI 0)]
        ∈ eloDim filter) ∧
    (∀ n, filter.minelo ≠ "" → atoi filter.minelo = some n →
      Bson.doc [("whiteelo", FieldCond.gteI n), ("blackelo", FieldCond.gteI n)]
        ∈ eloDim filter) ∧
    (filter.maxelo ≠ "" → atoi filter.maxelo = none →
      Bson.doc [("whiteelo", FieldCond.lteI 0), ("blackelo", FieldCond.lteI 0)]
        ∈ eloDim filter) ∧
    (parseFromDate filter.fromD = none → parseToDate filter.toD = none →
      dateDim filter = []) ∧
    (∀ d, parseFromDate filter.fromD = some d →
      Bson.doc [("datetime", FieldCond.gteI d)] ∈ dateDim filter) ∧
    (∀ d, parseToDate filter.toD = some d →
      Bson.doc [("datetime", FieldCond.lteI d)] ∈ dateDim filter) := by
  intro filter
  refine ⟨?_, ?_, ?_, ?_, ?_, ?_⟩
  · intro hne hbad
    unfold eloDim
    rw [if_pos hne, hbad]
    exact List.mem_append_left _ (List.mem_singleton.mpr rfl)
  · intro n hne hsome
    unfold eloDim
    rw [if_pos hne, hsome]
    exact List.mem_append_left _ (List.mem_singleton.mpr rfl)
  · intro hne hbad
    unfold eloDim
    rw [if_pos hne, hbad]
    exact List.mem_append_right _ (List.mem_singleton.mpr rfl)
  · intro hfrom hto
    unfold dateDim
    simp [hfrom, hto]
  · intro d hd
    have hne : filter.fromD ≠ "" := by
      intro h
      rw [h] at hd
      simp [parseFromDate, parseYMD] at hd
    unfold dateDim
    rw [if_pos hne, hd]
    exact List.mem_append_left _ (List.mem_singleton.mpr rfl)
  · intro d hd
    have hne : filter.toD ≠ "" := by
      intro h
      rw [h] at hd
      simp [parseToDate, parseYMD] at hd
    unfold dateDim
    rw [if_pos hne, hd]
    exact List.mem_append_right _ (List.mem_singleton.mpr rfl)

/-- C3 witness: concrete application — the malformed value `"abc"` yields
the zero-valued `$gte` bound, the malformed date `"2021-99-99"` is dropped,
and the well-formed date `"2021-05-06"` contributes its bound. -/
theorem malformed_subfields_amended_witness :
    Bson.doc [("whiteelo", FieldCond.gteI 0), ("blackelo", FieldCond.gteI 0)]
      ∈ eloDim { emptyFilterScan with minelo := "abc" } ∧
    dateDim { emptyFilterScan with fromD := "2021-99-99" } = [] ∧
    Bson.doc [("datetime", FieldCond.gteI (dateStamp 2021 5 6 0))]
      ∈ dateDim { emptyFilterScan with fromD := "2021-05-06" } :=
  ⟨(malformed_subfields_amended _).1 (by decide) (by decide),
   (malformed_subfields_amended _).2.2.2.1 (by decide) (by decide),
   (malformed_subfields_amended _).2.2.2.2.1 _ (by decide)⟩

/-! ## C8: strategy boolean iff prefix shorter than 20 plies -/

/-- C8: the derived strategy boolean of a parsed request is `true` exactly
when the number of opening-prefix tokens that remain after stripping the
move-number tokens (those ending in `"."`) from the space-split trimmed
`pgn` field is strictly below 20, and `pgnMoves` is exactly that stripped
token list. -/
theorem strategy_iff_prefix_under_20 (r : Request) :
    ((gameFilterFromRequest r).mongoAggregation = true ↔
      ((charSplit (trimSpace r.pgn) ' ').filter (fun t => !endsDot t)).length < 20) ∧
    (gameFilterFromRequest r).pgnMoves =
      (if (trimSpace r.pgn).length > 0 then charSplit (trimSpace r.pgn) ' '
       else []).filter (fun t => !endsDot t) := by
  constructor
  · show decide ((stripDots (trimSpace r.pgn)).length < 20) = true ↔ _
    rw [decide_eq_true_eq]
    by_cases h : trimSpace r.pgn = ""
    · rw [h]
      constructor
      · intro _; decide
      · intro _; decide
    · have hlen : (trimSpace r.pgn).length > 0 := by
        rcases hs : trimSpace r.pgn with ⟨l⟩
        cases l with
        | nil => exact absurd hs h
        | cons c cs => simp [String.length]
      unfold stripDots
      rw [if_pos hlen]
  · rfl

/-- C8 witness: a two-ply request prefix parses to fewer than 20 plies and
selects the indexed strategy. -/
theorem strategy_iff_prefix_under_20_witness :
    (gameFilterFromRequest { emptyRequest with pgn := "1. e4 e5" }).mongoAggregation = true :=
  (strategy_iff_prefix_under_20 { emptyRequest with pgn := "1. e4 e5" }).1.mpr (by decide)

/-! ## C9: the rating band constrains both colors -/

/-- C9: whenever a minimum (resp. maximum) rating value is present, any
game matched by the compiled predicate has **both** the White and the Black
rating above the minimum (resp. below the maximum); concretely, the
min-2000 filter excludes the White-2100/Black-1900 game and the min-1800
filter includes it. -/
theorem rating_band_both_colors :
    (∀ (filter : GameFilter) (g : Game), filter.minelo ≠ "" →
        evalBson (bsonFromGameFilter filter) g = true →
        (atoi filter.minelo).getD 0 ≤ g.whiteelo ∧ (atoi filter.minelo).getD 0 ≤ g.blackelo) ∧
    (∀ (filter : GameFilter) (g : Game), filter.maxelo ≠ "" →
        evalBson (bsonFromGameFilter filter) g = true →
        g.whiteelo ≤ (atoi filter.maxelo).getD 0 ∧ g.blackelo ≤ (atoi filter.maxelo).getD 0) ∧
    evalBson (bsonFromGameFilter (gameFilterFromRequest req2000)) gMixed = false ∧
    evalBson (bsonFromGameFilter (gameFilterFromRequest req1800)) gMixed = true := by
  refine ⟨?_, ?_, by decide, by decide⟩
  · intro filter g hne h
    have hmem : Bson.doc [("whiteelo", FieldCond.gteI ((atoi filter.minelo).getD 0)),
        ("blackelo", FieldCond.gteI ((atoi filter.minelo).getD 0))] ∈ eloDim filter := by
      unfold eloDim
      rw [if_pos hne]
      exact List.mem_append_left _ (List.mem_singleton.mpr rfl)
    have hdoc := eval_dim_of_final (eloDim_contrib filter).1 (eloDim_contrib filter).2 h _ hmem
    rw [evalBson_doc] at hdoc
    simp only [List.all_cons, List.all_nil, Bool.and_eq_true, Bool.and_true] at hdoc
    obtain ⟨hw, hb⟩ := hdoc
    rw [show evalField g "whiteelo" (FieldCond.gteI ((atoi filter.minelo).getD 0)) =
        decide ((atoi filter.minelo).getD 0 ≤ g.whiteelo) from rfl,
      decide_eq_true_eq] at hw
    rw [show evalField g "blackelo" (FieldCond.gteI ((atoi filter.minelo).getD 0)) =
        decide ((atoi filter.minelo).getD 0 ≤ g.blackelo) from rfl,
      decide_eq_true_eq] at hb
    exact ⟨hw, hb⟩
  · intro filter g hne h
    have hmem : Bson.doc [("whiteelo", FieldCond.lteI ((atoi filter.maxelo).getD 0)),
        ("blackelo", FieldCond.lteI ((atoi filter.maxelo).getD 0))] ∈ eloDim filter := by
      unfold eloDim
      rw [if_pos hne]
      exact List.mem_append_right _ (List.mem_singleton.mpr rfl)
    have hdoc := eval_dim_of_final (eloDim_contrib filter).1 (eloDim_contrib filter).2 h _ hmem
    rw [evalBson_doc] at hdoc
    simp only [List.all_cons, List.all_nil, Bool.and_eq_true, Bool.and_true] at hdoc
    obtain ⟨hw, hb⟩ := hdoc
    rw [show evalField g "whiteelo" (FieldCond.lteI ((atoi filter.maxelo).getD 0)) =
        decide (g.whiteelo ≤ (atoi filter.maxelo).getD 0) from rfl,
      decide_eq_true_eq] at hw
    rw [show evalField g "blackelo" (FieldCond.lteI ((atoi filter.maxelo).getD 0)) =
        decide (g.blackelo ≤ (atoi filter.maxelo).getD 0) from rfl,
      decide_eq_true_eq] at hb
    exact ⟨hw, hb⟩

/-- C9 witness: the general bound applied to the min-2000 filter on a game
it matches yields both ratings at least 2000. -/
theorem rating_band_both_colors_witness :
    (2000 : Int) ≤ gBothHigh.whiteelo ∧ (2000 : Int) ≤ gBothHigh.blackelo := by
  have h := rating_band_both_colors.1 (gameFilterFromRequest req2000) gBothHigh
    (by decide) (by decide)
  rw [show (atoi (gameFilterFromRequest req2000).minelo).getD 0 = (2000 : Int) from by decide] at h
  exact h

/-! ## Replay lemmas (searchfen.go) -/

theorem replayAux_length_le_one {P : Type} (apply : P → String → Option P)
    (strP : P → String) (fen : String) (maxMoves : Int) :
    ∀ (moves : List String) (pos : P) (iMove : Nat),
      (replayAux apply strP fen maxMoves moves pos iMove).length ≤ 1 := by
  intro moves
  induction moves with
  | nil => intro pos i; simp [replayAux]
  | cons move rest ih =>
    intro pos i
    by_cases h1 : strP ((apply pos move).getD pos) = fen
    · simp [replayAux, h1]
    · by_cases h2 : ((i : Int) + 1) = maxMoves
      · simp [replayAux, h1, h2]
      · simpa [replayAux, h1, h2] using ih ((apply pos move).getD pos) (i + 1)

theorem replayAux_zero_eq_uncapped {P : Type} (apply : P → String → Option P)
    (strP : P → String) (fen : String) :
    ∀ (moves : List String) (pos : P) (iMove : Nat),
      replayAux apply strP fen 0 moves pos iMove = replayAuxU apply strP fen moves pos iMove := by
  intro moves
  induction moves with
  | nil => intro pos i; rfl
  | cons move rest ih =>
    intro pos i
    by_cases h1 : strP ((apply pos move).getD pos) = fen
    · simp [replayAux, replayAuxU, h1]
    · have h2 : ¬(((i : Int) + 1) = (0 : Int)) := by omega
      simp [replayAux, replayAuxU, h1, h2, ih]

theorem replayAux_hit {P : Type} (apply : P → String → Option P) (strP : P → String)
    (fen : String) (maxMoves : Int) :
    ∀ (moves : List String) (pos : P) (iMove : Nat) (r : Nat),
      (1 ≤ maxMoves → (iMove : Int) + 1 ≤ maxMoves) →
      replayAux apply strP fen maxMoves moves pos iMove = [r] →
      ∃ k, 1 ≤ k ∧ k ≤ moves.length ∧ r = iMove + k ∧
        strP (posAfter apply pos moves k) = fen ∧
        (∀ j, 1 ≤ j → j < k → strP (posAfter apply pos moves j) ≠ fen) ∧
        (1 ≤ maxMoves → (r : Int) ≤ maxMoves) := by
  intro moves
  induction moves with
  | nil => intro pos i r _ h; simp [replayAux] at h
  | cons move rest ih =>
    intro pos i r hinv h
    by_cases h1 : strP ((apply pos move).getD pos) = fen
    · have hr : r = i + 1 := by
        have := h
        simp [replayAux, h1] at this
        omega
      refine ⟨1, le_refl 1, by simp, by omega, ?_, ?_, ?_⟩
      · rw [show posAfter apply pos (move :: rest) 1 = (apply pos move).getD pos from by simp [posAfter]]
        exact h1
      · intro j hj1 hj2; omega
      · intro hm
        have := hinv hm
        omega
    · by_cases h2 : ((i : Int) + 1) = maxMoves
      · simp [replayAux, h1, h2] at h
      · have h' : replayAux apply strP fen maxMoves rest ((apply pos move).getD pos) (i + 1)
            = [r] := by
          simpa [replayAux, h1, h2] using h
        have hinv' : 1 ≤ maxMoves → ((i + 1 : Nat) : Int) + 1 ≤ maxMoves := by
          intro hm
          have := hinv hm
          push_cast
          omega
        obtain ⟨k, hk1, hk2, hk3, hk4, hk5, hk6⟩ := ih ((apply pos move).getD pos) (i + 1) r hinv' h'
        refine ⟨k + 1, by omega, by simpa using Nat.add_le_add_right hk2 1, by omega, hk4, ?_, hk6⟩
        intro j hj1 hj2
        match j, hj1 with
        | 1, _ =>
          rw [show posAfter apply pos (move :: rest) 1 = (apply pos move).getD pos from by simp [posAfter]]
          exact h1
        | (j' + 2), _ =>
          exact hk5 (j' + 1) (by omega) (by omega)

theorem replayAux_nohit {P : Type} (apply : P → String → Option P) (strP : P → String)
    (fen : String) (maxMoves : Int) :
    ∀ (moves : List String) (pos : P) (iMove : Nat),
      (1 ≤ maxMoves → (iMove : Int) + 1 ≤ maxMoves) →
      (∀ j, 1 ≤ j → j ≤ moves.length → (1 ≤ maxMoves → (iMove : Int) + j ≤ maxMoves) →
        strP (posAfter apply pos moves j) ≠ fen) →
      replayAux apply strP fen maxMoves moves pos iMove = [] := by
  intro moves
  induction moves with
  | nil => intro pos i _ _; rfl
  | cons move rest ih =>
    intro pos i hinv hno
    have h1 : strP ((apply pos move).getD pos) ≠ fen := by
      have := hno 1 (le_refl 1) (by simp) (by intro hm; have := hinv hm; push_cast; omega)
      simpa [posAfter] using this
    by_cases h2 : ((i : Int) + 1) = maxMoves
    · simp [replayAux, h1, h2]
    · have hinv' : 1 ≤ maxMoves → ((i + 1 : Nat) : Int) + 1 ≤ maxMoves := by
        intro hm
        have := hinv hm
        push_cast
        omega
      have hno' : ∀ j, 1 ≤ j → j ≤ rest.length →
          (1 ≤ maxMoves → ((i + 1 : Nat) : Int) + j ≤ maxMoves) →
          strP (posAfter apply ((apply pos move).getD pos) rest j) ≠ fen := by
        intro j hj1 hj2 hcap
        have := hno (j + 1) (by omega) (by simpa using Nat.add_le_add_right hj2 1)
          (by intro hm; have := hcap hm; push_cast at this ⊢; omega)
        simpa [posAfter] using this
      simpa [replayAux, h1, h2] using ih ((apply pos move).getD pos) (i + 1) hinv' hno'

/-! ## C7: at most one hit, first-match semantics, ply ceiling -/

/-- C7: per game, replay reports at most one hit; a reported hit is at the
first ply whose position prints as the target, lies within the move list,
and (under a positive ceiling) within the ceiling; if no ply inside the
ceiling matches, the game yields no hit; and a ceiling of `0` imposes no
cap (replay behaves exactly like the uncapped loop). -/
theorem replay_single_hit_and_cap {P : Type} (apply : P → String → Option P)
    (strP : P → String) (init : P) (fen : String) (maxMoves : Int) (g : Game) :
    (replayGame apply strP init fen maxMoves g).length ≤ 1 ∧
    (∀ r, replayGame apply strP init fen maxMoves g = [r] →
        1 ≤ r ∧ r ≤ (stripDots g.pgn).length ∧
        strP (posAfter apply init (stripDots g.pgn) r) = fen ∧
        (∀ j, 1 ≤ j → j < r → strP (posAfter apply init (stripDots g.pgn) j) ≠ fen) ∧
        (1 ≤ maxMoves → (r : Int) ≤ maxMoves)) ∧
    ((∀ j, 1 ≤ j → j ≤ (stripDots g.pgn).length → (1 ≤ maxMoves → (j : Int) ≤ maxMoves) →
        strP (posAfter apply init (stripDots g.pgn) j) ≠ fen) →
      replayGame apply strP init fen maxMoves g = []) ∧
    (maxMoves = 0 →
      replayGame apply strP init fen maxMoves g = replayGameU apply strP init fen g) := by
  refine ⟨replayAux_length_le_one apply strP fen maxMoves _ init 0, ?_, ?_, ?_⟩
  · intro r h
    obtain ⟨k, hk1, hk2, hk3, hk4, hk5, hk6⟩ :=
      replayAux_hit apply strP fen maxMoves (stripDots g.pgn) init 0 r (by omega) h
    have hrk : r = k := by omega
    subst hrk
    exact ⟨hk1, hk2, hk4, hk5, hk6⟩
  · intro hno
    refine replayAux_nohit apply strP fen maxMoves (stripDots g.pgn) init 0 (by omega) ?_
    intro j hj1 hj2 hcap
    refine hno j hj1 hj2 ?_
    intro hm
    have := hcap hm
    push_cast at this ⊢
    omega
  · intro hzero
    subst hzero
    exact replayAux_zero_eq_uncapped apply strP fen (stripDots g.pgn) init 0

/-- C7 witness: on the concrete capability, a game hitting the target at
ply 1, a two-ply game missing the target within a ceiling of 2, and the
ceiling-0 run coinciding with the uncapped run. -/
theorem replay_single_hit_and_cap_witness :
    (replayGame demoApply (fun s => s) "start" "pos-e4" (0 : Int) gHit).length ≤ 1 ∧
    (fun s => s) (posAfter demoApply "start" (stripDots gHit.pgn) 1) = "pos-e4" ∧
    replayGame demoApply (fun s => s) "start" "zzz" (2 : Int) gHit = [] ∧
    replayGame demoApply (fun s => s) "start" "pos-e4" (0 : Int) gHit =
      replayGameU demoApply (fun s => s) "start" "pos-e4" gHit := by
  refine ⟨(replay_single_hit_and_cap demoApply (fun s => s) "start" "pos-e4" 0 gHit).1,
    ((replay_single_hit_and_cap demoApply (fun s => s) "start" "pos-e4" 0 gHit).2.1 1
      (by decide)).2.2.1, ?_,
    (replay_single_hit_and_cap demoApply (fun s => s) "start" "pos-e4" 0 gHit).2.2.2 rfl⟩
  refine (replay_single_hit_and_cap demoApply (fun s => s) "start" "zzz" 2 gHit).2.2.1 ?_
  intro j hj1 hj2 _
  have hlen : (stripDots gHit.pgn).length = 2 := by decide
  rw [hlen] at hj2
  interval_cases j <;> decide

/-! ## C2: an illegal token does not abort the replay -/

/-- C2, counterexample: `replay` discards the error of
`chessGame.MoveStr(move)`, so an unparseable token does **not** abort the
game's replay and the game is **not** treated as a guaranteed no-hit: with
the concrete capability, the token `xx` of `gIllegalToken` is illegal at
ply 2, yet replay continues past it and reports a hit at ply 3. -/
theorem illegal_move_still_hits :
    demoApply "pos-e4" "xx" = none ∧
    replayGame demoApply (fun s => s) "start" "pos-e4e5" 0 gIllegalToken = [3] :=
  ⟨by decide, by decide⟩

/-- C2 (amended): an illegal or unparseable move token is silently
*skipped*: its error is discarded, the position is left unchanged, the ply
counter still advances, and replay of that game continues with the
remaining tokens (so the failure stays local to the token, and — replay
being a pure per-game function — it cannot affect any other game's
replay). -/
theorem illegal_move_skipped {P : Type} (apply : P → String → Option P) (strP : P → String)
    (fen : String) (maxMoves : Int) (pos : P) (tok : String) (rest : List String) (iMove : Nat)
    (hbad : apply pos tok = none) (hnomatch : strP pos ≠ fen)
    (hcap : ((iMove : Int) + 1) ≠ maxMoves) :
    replayAux apply strP fen maxMoves (tok :: rest) pos iMove =
      replayAux apply strP fen maxMoves rest pos (iMove + 1) := by
  simp [replayAux, hbad, hnomatch, hcap]

/-- C2 witness: the skip equation at the concrete illegal token. -/
theorem illegal_move_skipped_witness :
    replayAux demoApply (fun s => s) "zzz" 0 ["xx", "e5"] "pos-e4" 1 =
      replayAux demoApply (fun s => s) "zzz" 0 ["e5"] "pos-e4" 2 :=
  illegal_move_skipped demoApply (fun s => s) "zzz" 0 "pos-e4" "xx" ["e5"] 1
    (by decide) (by decide) (by decide)

/-! ## C10: the scan extraction never indexes out of range -/

theorem movesTokensOk_bound :
    ∀ (ts : List String) (i : Nat), movesTokensOk ts = true → i < ts.length →
      endsDot (ts.getD i "") = true → i + 1 < ts.length := by
  intro ts
  induction ts with
  | nil => intro i _ hi _; simp at hi
  | cons x rest ih =>
    intro i hok hi hdot
    cases rest with
    | nil =>
      have hi0 : i = 0 := by simpa using hi
      subst hi0
      simp [movesTokensOk] at hok
      simp [List.getD] at hdot
      rw [hdot] at hok
      contradiction
    | cons y rest2 =>
      cases i with
      | zero => simp
      | succ i' =>
        have hok' : movesTokensOk (y :: rest2) = true := by
          have := hok
          simp only [movesTokensOk, Bool.and_eq_true] at this
          exact this.2
        have hi' : i' < (y :: rest2).length := by simpa using hi
        have hdot' : endsDot ((y :: rest2).getD i' "") = true := by
          simpa [List.getD] using hdot
        have := ih i' hok' hi' hdot'
        simpa using Nat.add_lt_add_right this 1

/-- C10: for any stored game whose move text is well-formed (as the
ingestion layer produces it), the scan strategy's next-move extraction is
always in bounds — whenever the token at the prefix length is a ply-number
token, the index one past it is still inside the result-stripped token
list, so the out-of-range branch of `gamePgn[len(filterPgn)+1]` is
unreachable (in particular for every game the store predicate can
return). -/
theorem scan_extract_never_out_of_range (g : Game) (filterPgn : List String)
    (hwf : wellFormedPgnTokens (charSplit g.pgn ' ') = true) :
    (extractNextMove filterPgn ((charSplit g.pgn ' ').dropLast)).isSome = true := by
  have hok : movesTokensOk ((charSplit g.pgn ' ').dropLast) = true := by
    unfold wellFormedPgnTokens at hwf
    cases hL : (charSplit g.pgn ' ').getLast? with
    | none => rw [hL] at hwf; simp at hwf
    | some res =>
      rw [hL] at hwf
      simp only [Bool.and_eq_true] at hwf
      exact hwf.2
  unfold extractNextMove
  by_cases hlong : ((charSplit g.pgn ' ').dropLast).length > filterPgn.length
  · rw [if_pos hlong]
    by_cases hdot : endsDot (((charSplit g.pgn ' ').dropLast).getD filterPgn.length "") = true
    · rw [if_pos hdot]
      have hb := movesTokensOk_bound _ filterPgn.length hok (by omega) hdot
      rw [List.get?_eq_get hb]
      rfl
    · rw [if_neg hdot]
      rfl
  · rw [if_neg hlong]
    rfl

/-- C10 witness: the interesting branch at a concrete well-formed move
text and the empty raw prefix (the token at index 0 is the ply number
`1.`, and index 1 is in bounds). -/
theorem scan_extract_never_out_of_range_witness :
    wellFormedPgnTokens (charSplit gE4.pgn ' ') = true ∧
    (extractNextMove [] ((charSplit gE4.pgn ' ').dropLast)).isSome = true :=
  ⟨by decide, scan_extract_never_out_of_range gE4 [] (by decide)⟩

/-! ## Tally invariants (for the aggregation claims) -/

theorem bumpResult_ne_nil (rs : List MoveResult) (res : String) : bumpResult rs res ≠ [] := by
  cases rs with
  | nil => simp [bumpResult]
  | cons y rest =>
    unfold bumpResult
    split <;> simp

theorem bumpResult_sums (rs : List MoveResult) (res : String)
    (h : ∀ y ∈ rs, 1 ≤ y.sum) : ∀ y ∈ bumpResult rs res, 1 ≤ y.sum := by
  induction rs with
  | nil => intro y hy; simp [bumpResult] at hy; simp [hy]
  | cons z rest ih =>
    intro y hy
    unfold bumpResult at hy
    split at hy
    · rcases List.mem_cons.mp hy with h1 | h1
      · subst h1; simp
      · exact h y (List.mem_cons_of_mem _ h1)
    · rcases List.mem_cons.mp hy with h1 | h1
      · rw [h1]; exact h z (List.mem_cons_self _ _)
      · exact ih (fun y hy => h y (List.mem_cons_of_mem _ hy)) y h1

theorem modifyAt_mem (f : NextMove → NextMove) :
    ∀ (l : List NextMove) (i : Nat) (x : NextMove), x ∈ modifyAt f l i →
      x ∈ l ∨ ∃ y ∈ l, x = f y := by
  intro l
  induction l with
  | nil => intro i x hx; simp [modifyAt] at hx
  | cons z rest ih =>
    intro i x hx
    cases i with
    | zero =>
      rcases List.mem_cons.mp hx with h1 | h1
      · exact Or.inr ⟨z, List.mem_cons_self _ _, h1⟩
      · exact Or.inl (List.mem_cons_of_mem _ h1)
    | succ i' =>
      rcases List.mem_cons.mp hx with h1 | h1
      · exact Or.inl (h1 ▸ List.mem_cons_self _ _)
      · rcases ih i' x h1 with h2 | ⟨y, hy, hxy⟩
        · exact Or.inl (List.mem_cons_of_mem _ h2)
        · exact Or.inr ⟨y, List.mem_cons_of_mem _ hy, hxy⟩

theorem modifyAt_append_at_length (f : NextMove → NextMove) :
    ∀ (l : List NextMove) (a : NextMove), modifyAt f (l ++ [a]) l.length = l ++ [f a] := by
  intro l a
  induction l with
  | nil => rfl
  | cons z rest ih => simpa [modifyAt] using ih

/-- The rows of the scan tally always carry a nonempty bucket list of
positive counts and a remembered game. -/
def GoodRow (nm : NextMove) : Prop :=
  nm.Results ≠ [] ∧ (∀ y ∈ nm.Results, 1 ≤ y.sum) ∧ nm.tmpGame.isSome = true

theorem scanStep_good (filterPgn : List String) (acc : List NextMove) (g : Game)
    (hacc : ∀ nm ∈ acc, GoodRow nm) : ∀ nm ∈ scanStep filterPgn acc g, GoodRow nm := by
  intro nm hnm
  unfold scanStep at hnm
  split at hnm
  · split at hnm
    · rcases modifyAt_mem _ acc _ nm hnm with h1 | ⟨y, hy, hxy⟩
      · exact hacc nm h1
      · obtain ⟨hy1, hy2, hy3⟩ := hacc y hy
        subst hxy
        exact ⟨bumpResult_ne_nil _ _, bumpResult_sums _ _ hy2, hy3⟩
    · rw [modifyAt_append_at_length] at hnm
      rcases List.mem_append.mp hnm with h1 | h1
      · exact hacc nm h1
      · rw [List.mem_singleton.mp h1]
        refine ⟨bumpResult_ne_nil _ _, bumpResult_sums _ _ (by simp), by simp⟩
  · exact hacc nm hnm

theorem scanTally_good (filterPgn : List String) (games : List Game) :
    ∀ nm ∈ scanTally filterPgn games, GoodRow nm := by
  suffices h : ∀ (gs : List Game) (acc : List NextMove),
      (∀ nm ∈ acc, GoodRow nm) → ∀ nm ∈ gs.foldl (scanStep filterPgn) acc, GoodRow nm by
    exact h games [] (by simp)
  intro gs
  induction gs with
  | nil => intro acc hacc; exact hacc
  | cons g rest ih =>
    intro acc hacc
    exact ih _ (scanStep_good filterPgn acc g hacc)

theorem bumpPair_pos (acc : List ((Option String × String) × Nat)) (k : Option String × String)
    (hacc : ∀ p ∈ acc, 1 ≤ p.2) : ∀ p ∈ bumpPair acc k, 1 ≤ p.2 := by
  induction acc with
  | nil => intro p hp; simp [bumpPair] at hp; simp [hp]
  | cons q rest ih =>
    intro p hp
    rw [show bumpPair (q :: rest) k =
        (if q.1 = k then (q.1, q.2 + 1) :: rest else q :: bumpPair rest k) from by
      rcases q with ⟨k', c⟩; rfl] at hp
    split at hp
    · rcases List.mem_cons.mp hp with h1 | h1
      · subst h1; simp
      · exact hacc p (List.mem_cons_of_mem _ h1)
    · rcases List.mem_cons.mp hp with h1 | h1
      · rw [h1]; exact hacc q (List.mem_cons_self _ _)
      · exact ih (fun p hp => hacc p (List.mem_cons_of_mem _ hp)) p h1

theorem bumpPair_src (acc : List ((Option String × String) × Nat)) (k : Option String × String) :
    ∀ p ∈ bumpPair acc k, p.1 = k ∨ ∃ q ∈ acc, p.1 = q.1 := by
  induction acc with
  | nil => intro p hp; simp [bumpPair] at hp; simp [hp]
  | cons q rest ih =>
    intro p hp
    rw [show bumpPair (q :: rest) k =
        (if q.1 = k then (q.1, q.2 + 1) :: rest else q :: bumpPair rest k) from by
      rcases q with ⟨k', c⟩; rfl] at hp
    split at hp
    · rcases List.mem_cons.mp hp with h1 | h1
      · exact Or.inr ⟨q, List.mem_cons_self _ _, by rw [h1]⟩
      · exact Or.inr ⟨p, List.mem_cons_of_mem _ h1, rfl⟩
    · rcases List.mem_cons.mp hp with h1 | h1
      · exact Or.inr ⟨q, List.mem_cons_self _ _, by rw [h1]⟩
      · rcases ih p h1 with h2 | ⟨q', hq', h2⟩
        · exact Or.inl h2
        · exact Or.inr ⟨q', List.mem_cons_of_mem _ hq', h2⟩

theorem groupPairs_inv (fieldNum : Nat) (store0 : List Game) :
    ∀ (games : List Game) (acc : List ((Option String × String) × Nat)),
      (∀ g ∈ games, g ∈ store0) →
      (∀ p ∈ acc, 1 ≤ p.2 ∧ ∃ g ∈ store0, p.1 = (mfieldVal g fieldNum, g.result)) →
      ∀ p ∈ games.foldl (fun a g => bumpPair a (mfieldVal g fieldNum, g.result)) acc,
        1 ≤ p.2 ∧ ∃ g ∈ store0, p.1 = (mfieldVal g fieldNum, g.result) := by
  intro games
  induction games with
  | nil => intro acc _ hacc; exact hacc
  | cons g rest ih =>
    intro acc hsub hacc
    refine ih _ (fun g' hg' => hsub g' (List.mem_cons_of_mem _ hg')) ?_
    intro p hp
    refine ⟨bumpPair_pos acc _ (fun q hq => (hacc q hq).1) p hp, ?_⟩
    rcases bumpPair_src acc _ p hp with h1 | ⟨q, hq, h1⟩
    · exact ⟨g, hsub g (List.mem_cons_self _ _), h1⟩
    · exact h1 ▸ (hacc q hq).2

theorem groupPairs_good (games : List Game) (fieldNum : Nat) :
    ∀ p ∈ groupPairs games fieldNum,
      1 ≤ p.2 ∧ ∃ g ∈ games, p.1 = (mfieldVal g fieldNum, g.result) :=
  groupPairs_inv fieldNum games games [] (fun _ h => h) (by simp)

theorem bumpRow_good (acc : List (Option String × List MoveResult)) (mv : Option String)
    (r : MoveResult) (hr : 1 ≤ r.sum)
    (hacc : ∀ row ∈ acc, row.2 ≠ [] ∧ ∀ y ∈ row.2, 1 ≤ y.sum) :
    ∀ row ∈ bumpRow acc mv r, row.2 ≠ [] ∧ ∀ y ∈ row.2, 1 ≤ y.sum := by
  induction acc with
  | nil =>
    intro row hrow
    simp [bumpRow] at hrow
    subst hrow
    simpa using hr
  | cons q rest ih =>
    intro row hrow
    rw [show bumpRow (q :: rest) mv r =
        (if q.1 = mv then (q.1, q.2 ++ [r]) :: rest else q :: bumpRow rest mv r) from by
      rcases q with ⟨mv', rs⟩; rfl] at hrow
    split at hrow
    · rcases List.mem_cons.mp hrow with h1 | h1
      · subst h1
        obtain ⟨hq1, hq2⟩ := hacc q (List.mem_cons_self _ _)
        refine ⟨by simp, ?_⟩
        intro y hy
        rcases List.mem_append.mp hy with h2 | h2
        · exact hq2 y h2
        · rw [List.mem_singleton.mp h2]; exact hr
      · exact hacc row (List.mem_cons_of_mem _ h1)
    · rcases List.mem_cons.mp hrow with h1 | h1
      · rw [h1]; exact hacc q (List.mem_cons_self _ _)
      · exact ih (fun row hrow => hacc row (List.mem_cons_of_mem _ hrow)) row h1

theorem bumpRow_src (acc : List (Option String × List MoveResult)) (mv : Option String)
    (r : MoveResult) :
    ∀ row ∈ bumpRow acc mv r, row.1 = mv ∨ ∃ q ∈ acc, row.1 = q.1 := by
  induction acc with
  | nil => intro row hrow; simp [bumpRow] at hrow; simp [hrow]
  | cons q rest ih =>
    intro row hrow
    rw [show bumpRow (q :: rest) mv r =
        (if q.1 = mv then (q.1, q.2 ++ [r]) :: rest else q :: bumpRow rest mv r) from by
      rcases q with ⟨mv', rs⟩; rfl] at hrow
    split at hrow
    · rcases List.mem_cons.mp hrow with h1 | h1
      · exact Or.inr ⟨q, List.mem_cons_self _ _, by rw [h1]⟩
      · exact Or.inr ⟨row, List.mem_cons_of_mem _ h1, rfl⟩
    · rcases List.mem_cons.mp hrow with h1 | h1
      · exact Or.inr ⟨q, List.mem_cons_self _ _, by rw [h1]⟩
      · rcases ih row h1 with h2 | ⟨q', hq', h2⟩
        · exact Or.inl h2
        · exact Or.inr ⟨q', List.mem_cons_of_mem _ hq', h2⟩

theorem collectRows_inv (pairs0 : List ((Option String × String) × Nat)) :
    ∀ (pairs : List ((Option String × String) × Nat))
      (acc : List (Option String × List MoveResult)),
      (∀ p ∈ pairs, p ∈ pairs0) →
      (∀ p ∈ pairs0, 1 ≤ p.2) →
      (∀ row ∈ acc, (row.2 ≠ [] ∧ ∀ y ∈ row.2, 1 ≤ y.sum) ∧ ∃ p ∈ pairs0, row.1 = p.1.1) →
      ∀ row ∈ pairs.foldl (fun a p => bumpRow a p.1.1 ⟨p.1.2, p.2⟩) acc,
        (row.2 ≠ [] ∧ ∀ y ∈ row.2, 1 ≤ y.sum) ∧ ∃ p ∈ pairs0, row.1 = p.1.1 := by
  intro pairs
  induction pairs with
  | nil => intro acc _ _ hacc; exact hacc
  | cons p rest ih =>
    intro acc hsub hpos hacc
    refine ih _ (fun q hq => hsub q (List.mem_cons_of_mem _ hq)) hpos ?_
    intro row hrow
    constructor
    · exact bumpRow_good acc p.1.1 ⟨p.1.2, p.2⟩
        (hpos p (hsub p (List.mem_cons_self _ _)))
        (fun q hq => (hacc q hq).1) row hrow
    · rcases bumpRow_src acc p.1.1 ⟨p.1.2, p.2⟩ row hrow with h1 | ⟨q, hq, h1⟩
      · exact ⟨p, hsub p (List.mem_cons_self _ _), h1⟩
      · exact h1 ▸ (hacc q hq).2

/-- Every decoded aggregation row has a nonempty positive-count bucket list
and its move value comes from the grouped field of a matched game. -/
theorem aggregateNextMoves_good (store : List Game) (b : Bson) (fieldNum : Nat) :
    ∀ nm ∈ aggregateNextMoves store b fieldNum,
      nm.Results ≠ [] ∧ (∀ y ∈ nm.Results, 1 ≤ y.sum) ∧
      ∃ g ∈ findGames store b, nm.Move = (mfieldVal g fieldNum).getD "" ∧
        nm.game = none ∧ nm.tmpGame = none := by
  intro nm hnm
  unfold aggregateNextMoves at hnm
  rcases List.mem_map.mp hnm with ⟨row, hrow, hdef⟩
  have hrowinv := collectRows_inv (groupPairs (findGames store b) fieldNum)
    (groupPairs (findGames store b) fieldNum) [] (fun _ h => h)
    (fun p hp => (groupPairs_good _ _ p hp).1) (by simp) row hrow
  obtain ⟨⟨hne, hpos⟩, ⟨p, hp, hkey⟩⟩ := hrowinv
  obtain ⟨_, g, hg, hpk⟩ := groupPairs_good _ _ p hp
  subst hdef
  refine ⟨by simpa using hne, by simpa using hpos, g, hg, ?_, rfl, rfl⟩
  simp only
  rw [hkey, hpk]

/-! ## Totals -/

theorem wdbStep_sum_ge (wdb : Nat × Nat × Nat) (y : MoveResult) (h : 1 ≤ y.sum) :
    1 ≤ (wdbStep wdb y).1 + (wdbStep wdb y).2.1 + (wdbStep wdb y).2.2 := by
  unfold wdbStep
  split
  · dsimp only
    omega
  · split
    · dsimp only
      omega
    · dsimp only
      omega

theorem foldl_wdbStep_pos :
    ∀ (rs : List MoveResult) (init : Nat × Nat × Nat), rs ≠ [] → (∀ y ∈ rs, 1 ≤ y.sum) →
      1 ≤ (rs.foldl wdbStep init).1 + (rs.foldl wdbStep init).2.1 +
        (rs.foldl wdbStep init).2.2 := by
  intro rs
  induction rs with
  | nil => intro _ h _; exact absurd rfl h
  | cons y rest ih =>
    intro init _ hall
    cases rest with
    | nil =>
      simpa using wdbStep_sum_ge init y (hall y (List.mem_cons_self _ _))
    | cons z rest2 =>
      simpa using ih (wdbStep init y) (by simp)
        (fun y hy => hall y (List.mem_cons_of_mem _ hy))

theorem tallyWDB_pos (rs : List MoveResult) (hne : rs ≠ []) (hpos : ∀ y ∈ rs, 1 ≤ y.sum) :
    1 ≤ (tallyWDB rs).1 + (tallyWDB rs).2.1 + (tallyWDB rs).2.2 :=
  foldl_wdbStep_pos rs (0, 0, 0) hne hpos

theorem postOne_total (store : List Game) (filter : GameFilter) (b : Bson) (nm : NextMove) :
    (postOne store filter b nm).Total =
      (tallyWDB nm.Results).1 + (tallyWDB nm.Results).2.1 + (tallyWDB nm.Results).2.2 := rfl

theorem postOne_total_pos (store : List Game) (filter : GameFilter) (b : Bson)
    (nm : NextMove) (hne : nm.Results ≠ []) (hpos : ∀ y ∈ nm.Results, 1 ≤ y.sum) :
    1 ≤ (postOne store filter b nm).Total := by
  rw [postOne_total]
  exact tallyWDB_pos nm.Results hne hpos

theorem endEntry_total (g : Game) : (endEntry g).Total = 1 := by
  unfold endEntry
  split
  · rfl
  · split <;> rfl

theorem endEntry_game (g : Game) : (endEntry g).game = some g := by
  unfold endEntry
  split
  · rfl
  · split <;> rfl

theorem endEntry_move (g : Game) : (endEntry g).Move = "End" := by
  unfold endEntry
  split
  · rfl
  · split <;> rfl

/-- Both strategies produce pre-sort rows with nonempty positive bucket
lists. -/
theorem preMoves_good (store : List Game) (filter : GameFilter) (b : Bson) :
    ∀ nm ∈ preMoves store filter b,
      nm.Results ≠ [] ∧ ∀ y ∈ nm.Results, 1 ≤ y.sum := by
  intro nm hnm
  unfold preMoves at hnm
  split at hnm
  · obtain ⟨h1, h2, _⟩ := aggregateNextMoves_good store b _ nm hnm
    exact ⟨h1, h2⟩
  · obtain ⟨h1, h2, _⟩ := scanTally_good _ _ nm hnm
    exact ⟨h1, h2⟩

/-- Every processed row has a positive total. -/
theorem processedMoves_total_pos (store : List Game) (r : Request) :
    ∀ nm ∈ processedMoves store r, 1 ≤ nm.Total := by
  intro nm hnm
  unfold processedMoves at hnm
  rcases List.mem_map.mp hnm with ⟨nm0, hnm0, hdef⟩
  obtain ⟨h1, h2⟩ := preMoves_good _ _ _ nm0 hnm0
  exact hdef ▸ postOne_total_pos _ _ _ nm0 h1 h2

/-! ## C4: ordering of the returned sequence -/

/-- C4, counterexample: `sort.Slice` is not a stable sort, so the relative
first-seen order of equal-total entries is *not* guaranteed: on a
two-game store producing the first-seen rows `e4` then `d4` (each with
Total 1), the reversed order is an admissible outcome of the handler, so
the claimed tie-breaking fails at this input. -/
theorem nextmoves_tie_order_not_preserved :
    nextMovesSpec cStore4 emptyRequest cSwapped ∧
    (processedMoves cStore4 emptyRequest).map NextMove.Move = ["e4", "d4"] ∧
    cSwapped.map NextMove.Move = ["d4", "e4"] ∧
    (∀ nm ∈ cSwapped, nm.Total = 1) := by
  refine ⟨⟨cSwapped, ⟨(List.reverse_perm _).symm, by decide⟩, by decide⟩,
    by decide, by decide, by decide⟩

/-- C4 (amended): under either strategy, every admissible result sequence
of the next-moves handler is ordered non-increasing in `Total` (including
the trailing synthetic `"End"` entries, whose totals are 1 while every
strategy row's total is at least 1); the relative order of equal totals is
whatever the unstable `sort.Slice` produces — first-seen order is not
guaranteed. -/
theorem nextmoves_sorted_by_total (store : List Game) (r : Request) (final : List NextMove)
    (h : nextMovesSpec store r final) : SortedByTotalGe final := by
  obtain ⟨sorted, ⟨hperm, hsorted⟩, hfinal⟩ := h
  subst hfinal
  rw [SortedByTotalGe, List.pairwise_append]
  refine ⟨hsorted, ?_, ?_⟩
  · refine List.Pairwise.map endEntry (fun a b hab => hab) ?_
    refine List.pairwise_of_forall_mem_list ?_
    intro a _ b _
    rw [endEntry_total, endEntry_total]
  · intro a ha b hb
    rcases List.mem_map.mp hb with ⟨g, _, hg⟩
    rw [← hg, endEntry_total]
    exact processedMoves_total_pos store r a (hperm.mem_iff.mpr ha)

/-- C4 witness: the amended ordering theorem applied to a concrete
one-game store, with the identity permutation as the sort outcome. -/
theorem nextmoves_sorted_by_total_witness :
    SortedByTotalGe (processedMoves cStore5 emptyRequest) := by
  refine nextmoves_sorted_by_total cStore5 emptyRequest (processedMoves cStore5 emptyRequest)
    ⟨processedMoves cStore5 emptyRequest, ⟨List.Perm.refl _, by decide⟩, by decide⟩

/-! ## C5: a Total-1 row always carries an attached game -/

theorem moves_constraints (filter : GameFilter) (g : Game)
    (h : evalBson (bsonFromGameFilter filter) g = true) :
    ∀ b ∈ movesDim filter, evalBson b g = true :=
  eval_dim_of_final (movesDim_contrib filter).1 (movesDim_contrib filter).2 h

/-- A game matched under the indexed strategy has a nonempty value in the
move field one past the prefix (the `$exists`/`$ne` clause). -/
theorem next_field_exists (filter : GameFilter) (g : Game)
    (hagg : filter.mongoAggregation = true)
    (h : evalBson (bsonFromGameFilter filter) g = true) :
    ∃ v, getStr g (buildMoveFieldName (filter.pgnMoves.length + 1)) = some v ∧ v ≠ "" := by
  have hmem : Bson.doc [(buildMoveFieldName (filter.pgnMoves.length + 1), FieldCond.existsNe)]
      ∈ movesDim filter := by
    unfold movesDim
    rw [if_pos hagg]
    exact List.mem_append_right _ (List.mem_singleton.mpr rfl)
  have hev := moves_constraints filter g h _ hmem
  rw [evalBson_doc] at hev
  simp only [List.all_cons, List.all_nil, Bool.and_true] at hev
  rw [show evalField g (buildMoveFieldName (filter.pgnMoves.length + 1)) FieldCond.existsNe =
      (match getStr g (buildMoveFieldName (filter.pgnMoves.length + 1)) with
        | some v => decide (v ≠ "")
        | none => false) from rfl] at hev
  cases hv : getStr g (buildMoveFieldName (filter.pgnMoves.length + 1)) with
  | none => rw [hv] at hev; simp at hev
  | some v =>
    rw [hv] at hev
    simp only at hev
    exact ⟨v, rfl, of_decide_eq_true hev⟩

/-- A game matched under the indexed strategy agrees with every prefix ply
equality clause. -/
theorem prefix_fields_match (filter : GameFilter) (g : Game)
    (hagg : filter.mongoAggregation = true)
    (h : evalBson (bsonFromGameFilter filter) g = true) :
    ∀ i < filter.pgnMoves.length,
      getStr g (buildMoveFieldName (i + 1)) = some (filter.pgnMoves.getD i "") := by
  intro i hi
  have hmem : Bson.doc [(buildMoveFieldName (i + 1),
      FieldCond.eqStr (filter.pgnMoves.getD i ""))] ∈ movesDim filter := by
    unfold movesDim
    rw [if_pos hagg]
    exact List.mem_append_left _ (List.mem_map.mpr ⟨i, List.mem_range.mpr hi, rfl⟩)
  have hev := moves_constraints filter g h _ hmem
  rw [evalBson_doc] at hev
  simp only [List.all_cons, List.all_nil, Bool.and_true] at hev
  rw [show evalField g (buildMoveFieldName (i + 1))
      (FieldCond.eqStr (filter.pgnMoves.getD i "")) =
      decide (getStr g (buildMoveFieldName (i + 1)) =
        some (filter.pgnMoves.getD i "")) from rfl] at hev
  exact of_decide_eq_true hev

/-- The extra `getGame` lookup for a move value taken from a matched
game's next-ply field always finds a game (that same game satisfies every
clause of the lookup query). -/
theorem getGame_isSome (store : List Game) (filter : GameFilter) (g : Game) (mv : String)
    (hagg : filter.mongoAggregation = true)
    (hg : g ∈ store) (heval : evalBson (bsonFromGameFilter filter) g = true)
    (hkey : getStr g (buildMoveFieldName (filter.pgnMoves.length + 1)) = some mv) :
    (getGame store filter.pgnMoves mv (bsonFromGameFilter filter)).isSome = true := by
  unfold getGame
  dsimp only
  have hmem : g ∈ findGames store (Bson.andB
      ([bsonFromGameFilter filter]
        ++ ((List.range filter.pgnMoves.length).map fun i =>
            Bson.doc [(buildMoveFieldName (i + 1),
              FieldCond.eqStr (filter.pgnMoves.getD i ""))])
        ++ [Bson.doc [(buildMoveFieldName (filter.pgnMoves.length + 1),
              FieldCond.eqStr mv)]])) := by
    rw [mem_findGames_iff]
    refine ⟨hg, ?_⟩
    rw [evalBson_andB, evalAll_iff]
    intro b hb
    rcases List.mem_append.mp hb with hb1 | hb2
    · rcases List.mem_append.mp hb1 with hb11 | hb12
      · rw [List.mem_singleton.mp hb11]
        exact heval
      · rcases List.mem_map.mp hb12 with ⟨i, hi, hbdef⟩
        rw [← hbdef, evalBson_doc]
        simp only [List.all_cons, List.all_nil, Bool.and_true]
        rw [show evalField g (buildMoveFieldName (i + 1))
            (FieldCond.eqStr (filter.pgnMoves.getD i "")) =
            decide (getStr g (buildMoveFieldName (i + 1)) =
              some (filter.pgnMoves.getD i "")) from rfl]
        exact decide_eq_true
          (prefix_fields_match filter g hagg heval i (List.mem_range.mp hi))
    · rw [List.mem_singleton.mp hb2, evalBson_doc]
      simp only [List.all_cons, List.all_nil, Bool.and_true]
      rw [show evalField g (buildMoveFieldName (filter.pgnMoves.length + 1))
          (FieldCond.eqStr mv) =
          decide (getStr g (buildMoveFieldName (filter.pgnMoves.length + 1)) =
            some mv) from rfl]
      exact decide_eq_true hkey
  cases hfg : findGames store (Bson.andB
      ([bsonFromGameFilter filter]
        ++ ((List.range filter.pgnMoves.length).map fun i =>
            Bson.doc [(buildMoveFieldName (i + 1),
              FieldCond.eqStr (filter.pgnMoves.getD i ""))])
        ++ [Bson.doc [(buildMoveFieldName (filter.pgnMoves.length + 1),
              FieldCond.eqStr mv)]])) with
  | nil => rw [hfg] at hmem; simp at hmem
  | cons x rest => rfl

/-- The `game` field written by the per-entry post-processing pass. -/
theorem postOne_game (store : List Game) (filter : GameFilter) (b : Bson) (nm : NextMove) :
    (postOne store filter b nm).game =
      (if (tallyWDB nm.Results).1 + (tallyWDB nm.Results).2.1 +
          (tallyWDB nm.Results).2.2 = 1 then
        if filter.mongoAggregation then
          match getGame store filter.pgnMoves nm.Move b with
          | some g => some g
          | none => nm.game
        else nm.tmpGame
      else nm.game) := rfl

theorem postOne_move (store : List Game) (filter : GameFilter) (b : Bson) (nm : NextMove) :
    (postOne store filter b nm).Move = nm.Move := rfl

/-- Every processed row with `Total = 1` carries an attached game. -/
theorem processed_total_one_game (store : List Game) (r : Request) :
    ∀ nm ∈ processedMoves store r, nm.Total = 1 → nm.game.isSome = true := by
  intro nm hnm htot
  unfold processedMoves at hnm
  rcases List.mem_map.mp hnm with ⟨nm0, hnm0, hdef⟩
  have htot' : (tallyWDB nm0.Results).1 + (tallyWDB nm0.Results).2.1 +
      (tallyWDB nm0.Results).2.2 = 1 := by
    rw [← postOne_total store (gameFilterFromRequest r)
      (bsonFromGameFilter (gameFilterFromRequest r)) nm0, hdef]
    exact htot
  rw [← hdef, postOne_game, if_pos htot']
  by_cases hagg : (gameFilterFromRequest r).mongoAggregation = true
  · rw [if_pos hagg]
    rw [preMoves, if_pos hagg] at hnm0
    obtain ⟨_, _, g0, hg0, hmove, _, _⟩ :=
      aggregateNextMoves_good store (bsonFromGameFilter (gameFilterFromRequest r))
        ((gameFilterFromRequest r).pgnMoves.length + 1) nm0 hnm0
    obtain ⟨hg0s, hg0e⟩ := (mem_findGames_iff _ _ _).mp hg0
    obtain ⟨v, hv, _⟩ := next_field_exists (gameFilterFromRequest r) g0 hagg hg0e
    have hmv : nm0.Move = v := by
      rw [hmove]
      unfold mfieldVal
      rw [hv]
      rfl
    have hkey : getStr g0
        (buildMoveFieldName ((gameFilterFromRequest r).pgnMoves.length + 1)) =
        some nm0.Move := by
      rw [hmv]
      exact hv
    have hsome := getGame_isSome store (gameFilterFromRequest r) g0 nm0.Move hagg hg0s hg0e hkey
    obtain ⟨gg, hgg⟩ := Option.isSome_iff_exists.mp hsome
    rw [hgg]
    rfl
  · rw [if_neg hagg]
    rw [preMoves, if_neg hagg] at hnm0
    exact (scanTally_good _ _ nm0 hnm0).2.2

/-- C5: in every admissible result of the next-moves handler, an entry
whose `Total` is exactly 1 carries a non-empty attached game — the
synthetic `"End"` entries carry their lone game, the scan strategy attaches
the game remembered during tallying with no extra lookup, and the indexed
strategy's one extra lookup (the game filter plus every preceding-ply
equality plus the candidate move) always finds a game. -/
theorem total_one_attaches_game (store : List Game) (r : Request) (final : List NextMove)
    (h : nextMovesSpec store r final) :
    ∀ nm ∈ final, nm.Total = 1 → nm.game.isSome = true := by
  obtain ⟨sorted, ⟨hperm, _⟩, hfinal⟩ := h
  subst hfinal
  intro nm hnm htot
  rcases List.mem_append.mp hnm with h1 | h1
  · exact processed_total_one_game store r nm (hperm.mem_iff.mpr h1) htot
  · rcases List.mem_map.mp h1 with ⟨g, _, hg⟩
    rw [← hg, endEntry_game]
    rfl

/-- C5 witness: on the concrete one-game store, the single aggregated row
(total 1) carries an attached game. -/
theorem total_one_attaches_game_witness :
    (((processedMoves cStore5 emptyRequest).getD 0 dummyNextMove).game).isSome = true := by
  refine total_one_attaches_game cStore5 emptyRequest (processedMoves cStore5 emptyRequest)
    ⟨processedMoves cStore5 emptyRequest, ⟨List.Perm.refl _, by decide⟩, by decide⟩
    _ (by decide) (by decide)

/-! ## C6: the synthetic "End" entry and lone games -/

theorem eval_pgn_eq (g : Game) (s : String) :
    evalBson (Bson.doc [("pgn", FieldCond.eqStr s)]) g = true ↔ g.pgn = s := by
  rw [evalBson_doc]
  simp only [List.all_cons, List.all_nil, Bool.and_true]
  rw [show evalField g "pgn" (FieldCond.eqStr s) = decide (some g.pgn = some s) from rfl,
    decide_eq_true_eq]
  exact Option.some_inj

/-- Evaluation of the lone-game query: the game filter plus "the move text
is the prefix followed by one of the three result tokens". -/
theorem eval_lone_query (b : Bson) (pgn : String) (g : Game) :
    evalBson (Bson.andB [b, Bson.orB
      [Bson.doc [("pgn", FieldCond.eqStr (pgn ++ " 1-0"))],
       Bson.doc [("pgn", FieldCond.eqStr (pgn ++ " 0-1"))],
       Bson.doc [("pgn", FieldCond.eqStr (pgn ++ " 1/2-1/2"))]]]) g = true ↔
    (evalBson b g = true ∧
      (g.pgn = pgn ++ " 1-0" ∨ g.pgn = pgn ++ " 0-1" ∨ g.pgn = pgn ++ " 1/2-1/2")) := by
  rw [evalBson_andB, evalAll_cons, evalAll_cons, evalAll_nil, Bool.and_true, Bool.and_eq_true,
    evalBson_orB, evalAny_cons, evalAny_cons, evalAny_cons, evalAny_nil, Bool.or_false,
    Bool.or_eq_true, Bool.or_eq_true]
  exact and_congr Iff.rfl
    (or_congr (eval_pgn_eq g _) (or_congr (eval_pgn_eq g _) (eval_pgn_eq g _)))

theorem getLoneGames_sub (store : List Game) (pgn : String) (b : Bson) :
    ∀ g ∈ getLoneGames store pgn b, g ∈ store := by
  intro g hg
  unfold getLoneGames findGames at hg
  exact (List.mem_filter.mp hg).1

theorem getLoneGames_ne_nil_iff (store : List Game) (pgn : String) (b : Bson) :
    getLoneGames store pgn b ≠ [] ↔
      ∃ g ∈ store, evalBson b g = true ∧
        (g.pgn = pgn ++ " 1-0" ∨ g.pgn = pgn ++ " 0-1" ∨ g.pgn = pgn ++ " 1/2-1/2") := by
  constructor
  · intro h
    rcases hfe : getLoneGames store pgn b with _ | ⟨x, xs⟩
    · exact absurd hfe h
    · have hx : x ∈ getLoneGames store pgn b := by rw [hfe]; exact List.mem_cons_self _ _
      unfold getLoneGames findGames at hx
      obtain ⟨hxs, hxp⟩ := List.mem_filter.mp hx
      exact ⟨x, hxs, (eval_lone_query b pgn x).mp hxp⟩
  · rintro ⟨g, hg, hcond⟩ hnil
    have hmem : g ∈ getLoneGames store pgn b := by
      unfold getLoneGames findGames
      exact List.mem_filter.mpr ⟨hg, (eval_lone_query b pgn g).mpr hcond⟩
    rw [hnil] at hmem
    simp at hmem

theorem endEntry_counts (g : Game)
    (hr : g.result = "1-0" ∨ g.result = "0-1" ∨ g.result = "1/2-1/2") :
    ((endEntry g).White = 1 ↔ g.result = "1-0") ∧
    ((endEntry g).Black = 1 ↔ g.result = "0-1") ∧
    ((endEntry g).Draw = 1 ↔ g.result = "1/2-1/2") := by
  unfold endEntry
  by_cases h1 : g.result = "1-0"
  · rw [if_pos h1]
    refine ⟨by simp [h1], ?_, ?_⟩
    · simp only
      constructor
      · intro h; omega
      · intro h; rw [h1] at h; exact absurd h (by decide)
    · simp only
      constructor
      · intro h; omega
      · intro h; rw [h1] at h; exact absurd h (by decide)
  · rw [if_neg h1]
    by_cases h2 : g.result = "0-1"
    · rw [if_pos h2]
      refine ⟨?_, by simp [h2], ?_⟩
      · simp only
        constructor
        · intro h; omega
        · intro h; exact absurd h h1
      · simp only
        constructor
        · intro h; omega
        · intro h; rw [h2] at h; exact absurd h (by decide)
    · rw [if_neg h2]
      have h3 : g.result = "1/2-1/2" := by
        rcases hr with h | h | h
        · exact absurd h h1
        · exact absurd h h2
        · exact h
      refine ⟨?_, ?_, by simp [h3]⟩
      · simp only
        constructor
        · intro h; omega
        · intro h; exact absurd h h1
      · simp only
        constructor
        · intro h; omega
        · intro h; exact absurd h h2

/-- C6: for every admissible handler result and every store whose games
carry one of the three result values, the result is the sorted strategy
rows followed by exactly the synthetic `"End"` entries of the lone games;
that appended segment is nonempty iff some predicate-matching game's move
text equals the opening prefix immediately followed by one of the three
result tokens; and each such entry has Total 1 with its single
White/Black/Draw count matching the lone game's result (and the game
attached). -/
theorem end_entry_iff_lone_game (store : List Game) (r : Request) (final : List NextMove)
    (h : nextMovesSpec store r final)
    (hres : ∀ g ∈ store, g.result = "1-0" ∨ g.result = "0-1" ∨ g.result = "1/2-1/2") :
    (∃ sorted, sortSliceSpec (processedMoves store r) sorted ∧
      final = sorted ++ (getLoneGames store (gameFilterFromRequest r).pgn
        (bsonFromGameFilter (gameFilterFromRequest r))).map endEntry) ∧
    ((getLoneGames store (gameFilterFromRequest r).pgn
        (bsonFromGameFilter (gameFilterFromRequest r))).map endEntry ≠ [] ↔
      ∃ g ∈ store, evalBson (bsonFromGameFilter (gameFilterFromRequest r)) g = true ∧
        (g.pgn = (gameFilterFromRequest r).pgn ++ " 1-0" ∨
         g.pgn = (gameFilterFromRequest r).pgn ++ " 0-1" ∨
         g.pgn = (gameFilterFromRequest r).pgn ++ " 1/2-1/2")) ∧
    (∀ g ∈ getLoneGames store (gameFilterFromRequest r).pgn
        (bsonFromGameFilter (gameFilterFromRequest r)),
      (endEntry g).Move = "End" ∧ (endEntry g).Total = 1 ∧ (endEntry g).game = some g ∧
      ((endEntry g).White = 1 ↔ g.result = "1-0") ∧
      ((endEntry g).Black = 1 ↔ g.result = "0-1") ∧
      ((endEntry g).Draw = 1 ↔ g.result = "1/2-1/2")) := by
  refine ⟨h, ?_, ?_⟩
  · rw [Ne, List.map_eq_nil_iff]
    exact getLoneGames_ne_nil_iff store (gameFilterFromRequest r).pgn
      (bsonFromGameFilter (gameFilterFromRequest r))
  · intro g hg
    obtain ⟨hc1, hc2, hc3⟩ := endEntry_counts g (hres g (getLoneGames_sub _ _ _ g hg))
    exact ⟨endEntry_move g, endEntry_total g, endEntry_game g, hc1, hc2, hc3⟩

/-- C6 witness: on the one-game store whose game's move text is exactly
the (empty) prefix plus `" 1-0"`, the `"End"` segment is nonempty. -/
theorem end_entry_iff_lone_game_witness :
    (getLoneGames cStore6 (gameFilterFromRequest emptyRequest).pgn
      (bsonFromGameFilter (gameFilterFromRequest emptyRequest))).map endEntry ≠ [] :=
  (end_entry_iff_lone_game cStore6 emptyRequest cFinal6
      ⟨processedMoves cStore6 emptyRequest, ⟨List.Perm.refl _, by decide⟩, rfl⟩
      (by decide)).2.1.mpr
    ⟨gLone, by decide, by decide, Or.inl (by decide)⟩

end ChessExplorer
